import Mathlib

/-!
Verification of the jubjub Go package (files `field_element.go` and the
curve/scalar sources) against its specification.  The package implements the
Jubjub twisted Edwards curve `-x^2 + y^2 = 1 + d*x^2*y^2` over the prime field
of order `p`, with arbitrary-precision integers (`math/big.Int`) as the
underlying representation.

The embedding below is a direct translation of the Go source:
* `FieldElement` values are `ℤ` (a `big.Int` is a signed arbitrary-precision
  integer); each Go method becomes a pure function with the receiver's new
  value as result.
* `Scalar` construction returns the stored value together with the
  `ErrScalarOutOfRange` signal as a `Bool`.
* `Point` is an affine pair of field-element values; the in-place Go methods
  read all of their operands before writing the receiver, so they are embedded
  as pure functions of the operand points.
* Fallible operations (`UnmarshalBinary`/`Decompress`, `ScalarMult`) return an
  `Option`; `none` is the `ErrInvalidPoint` outcome.
-/

set_option maxRecDepth 400000

namespace Jubjub

/-- Field order `p` (`fieldOrder` in `Curve()`): the BLS12-381 scalar field
order, a 255-bit prime. -/
def P : ℕ := 52435875175126190479447740508185965837690552500527637822603658699938581184513

/-- Subgroup order `n` (`subgroupOrder` in `Curve()`): the prime order of the
cryptographic subgroup, with cofactor 8. -/
def subgroupOrder : ℕ := 6554484396890773809930967563523245729705921265872317281365359162392183254199

/-- Fuel-driven fast modular exponentiation.  This is the computational model
of Go `math/big.Int.Exp` with a positive modulus: `b^e mod m`. -/
def powModAux : ℕ → ℕ → ℕ → ℕ → ℕ
  | 0, _, _, m => 1 % m
  | fuel + 1, b, e, m =>
    if e = 0 then 1 % m
    else if e % 2 = 1 then powModAux fuel (b * b % m) (e / 2) m * b % m
    else powModAux fuel (b * b % m) (e / 2) m

/-- Modular exponentiation `b^e mod m`; the fuel `e + 1` always suffices. -/
def powMod (b e m : ℕ) : ℕ := powModAux (e + 1) b e m

theorem powModAux_eq : ∀ fuel b e m : ℕ, e < 2 ^ fuel →
    powModAux fuel b e m = b ^ e % m
  | 0, b, e, m, h => by
    have he : e = 0 := by simpa using h
    subst he; simp [powModAux]
  | fuel + 1, b, e, m, h => by
    by_cases he : e = 0
    · subst he; simp [powModAux]
    · have h2 : e / 2 < 2 ^ fuel := by
        have hp : (2 : ℕ) ^ (fuel + 1) = 2 ^ fuel * 2 := by ring
        exact (Nat.div_lt_iff_lt_mul (by norm_num)).mpr (hp ▸ h)
      have ih := powModAux_eq fuel (b * b % m) (e / 2) m h2
      simp only [powModAux, he, if_false]
      rw [ih, ← Nat.pow_mod]
      by_cases hodd : e % 2 = 1
      · have key : b ^ e = (b * b) ^ (e / 2) * b := by
          rw [← sq, ← pow_mul, ← pow_succ]
          congr 1
          omega
        rw [if_pos hodd, key, Nat.mul_comm ((b * b) ^ (e / 2) % m) b,
          Nat.mul_mod_mod, Nat.mul_comm]
      · have key : b ^ e = (b * b) ^ (e / 2) := by
          rw [← sq, ← pow_mul]
          congr 1
          omega
        rw [if_neg hodd, key]

theorem powMod_eq (b e m : ℕ) : powMod b e m = b ^ e % m :=
  powModAux_eq (e + 1) b e m (lt_of_lt_of_le (Nat.lt_two_pow e)
    (Nat.pow_le_pow_right (by norm_num) (Nat.le_succ e)))

/-! ### Field elements (field_element.go)

A `FieldElement` stores a `big.Int` value; we embed the stored value as `ℤ`.
Go's `big.Int.Mod` is Euclidean (the result lies in `[0, m)` for a positive
modulus `m`), which is exactly Lean's `Int.emod`, written `%` below. -/

/-- Models `newFieldElement` (field_element.go:27): the value is reduced
`mod p` only when it is strictly greater than `p` (`n.Cmp(order) == 1`);
a value equal to `p`, or a negative value, is stored unchanged. -/
def newFieldElement (v : ℤ) : ℤ := if (P : ℤ) < v then v % (P : ℤ) else v

/-- Models `FieldElement.Add`: `(x + y) mod p`. -/
def feAdd (x y : ℤ) : ℤ := (x + y) % (P : ℤ)

/-- Models `FieldElement.Sub`: `(x - y) mod p`. -/
def feSub (x y : ℤ) : ℤ := (x - y) % (P : ℤ)

/-- Models `FieldElement.Mul`: `(x * y) mod p`. -/
def feMul (x y : ℤ) : ℤ := x * y % (P : ℤ)

/-- Models `FieldElement.Neg`: `(-x) mod p`. -/
def feNeg (x : ℤ) : ℤ := -x % (P : ℤ)

/-- Models `FieldElement.ModInverse` (which calls Go `big.Int.ModInverse` and
ignores its `nil` return): when `gcd(x, p) = 1` — for the prime `p` this means
`x % p ≠ 0` — the result is the canonical inverse of `x` in `[0, p)`, here
computed by Fermat exponentiation, extensionally equal to Go's extended-gcd
routine for a prime modulus; otherwise the receiver value `z` is returned
unchanged and no failure is signalled. -/
def feModInverse (z x : ℤ) : ℤ :=
  if x % (P : ℤ) = 0 then z else ((powMod (x % (P : ℤ)).toNat (P - 2) P : ℕ) : ℤ)

/-- Models `FieldElement.Exp` (Go `big.Int.Exp` with modulus `p`): for a
nonnegative exponent the result is `x^y mod p`; for a negative exponent the
base is inverted first, and when the base is not invertible the receiver `z`
is returned unchanged. -/
def feExp (z x y : ℤ) : ℤ :=
  if 0 ≤ y then ((powMod (x % (P : ℤ)).toNat y.toNat P : ℕ) : ℤ)
  else if x % (P : ℤ) = 0 then z
  else ((powMod (powMod (x % (P : ℤ)).toNat (P - 2) P) y.natAbs P : ℕ) : ℤ)

/-! ### Byte encoding (field_element.go `fromBytes`/`ToBytes`)

`fieldOrder.BitLen() = 255`, so both the word buffer of `fromBytes` and the
output of `ToBytes` hold exactly 32 little-endian bytes. -/

/-- Little-endian value of a byte list. -/
def leVal : List ℕ → ℕ
  | [] => 0
  | b :: bs => b + 256 * leVal bs

/-- Little-endian dump of the low `k` bytes of `v`. -/
def toBytesLE : ℕ → ℕ → List ℕ
  | 0, _ => []
  | k + 1, v => v % 256 :: toBytesLE k (v / 256)

/-- Models `FieldElement.fromBytes`: assembles at most 32 little-endian bytes
(the word buffer capacity) and reduces the value `mod p`. -/
def feFromBytes (c : List ℕ) : ℤ := ((leVal (c.take 32) % P : ℕ) : ℤ)

/-- Models `FieldElement.ToBytes`: the receiver is first reduced `mod p`, then
dumped as exactly 32 little-endian bytes. -/
def feToBytes (v : ℤ) : List ℕ := toBytesLE 32 (v % (P : ℤ)).toNat

/-! ### Scalars (scalar source file) -/

/-- Models `newScalar`: the stored value and the `ErrScalarOutOfRange` signal.
The value is reduced — and the signal raised — only when it is strictly
greater than the subgroup order (`n.Cmp(order) == 1`) or negative; a value
equal to the subgroup order passes through unchanged with no signal. -/
def newScalar (v : ℤ) : ℤ × Bool :=
  if (subgroupOrder : ℤ) < v ∨ v < 0 then (v % (subgroupOrder : ℤ), true) else (v, false)

/-- Models `Scalar.fromBytes` (hence `Jubjub.ScalarFromBytes`): assembles at
most 32 little-endian bytes, then applies the same range rule as `newScalar`. -/
def scalarFromBytes (c : List ℕ) : ℤ × Bool :=
  newScalar ((leVal (c.take 32) : ℕ) : ℤ)

/-! ### Points and the group law (curve source file)

`Curve()` builds the coefficient `d` as `ModInverse(10241, p)` multiplied by
`-10240`; the final `newFieldElement` call leaves this negative product
unreduced, so the stored value of `curve.d` is negative.  Every use of `d`
goes through `feMul`, so only its value `mod p` is ever observable. -/

/-- Stored value of `curve.d`: `-10240 * (10241⁻¹ mod p)`, unreduced. -/
def dStored : ℤ := -10240 * ((powMod 10241 (P - 2) P : ℕ) : ℤ)

/-- An affine point: the pair of stored coordinate values. -/
abbrev Point := ℤ × ℤ

/-- Models `Jubjub.Identity`: the point `(0, 1)`. -/
def identityPt : Point := (0, 1)

/-- Models `Point.IsOnCurve`: evaluates `-x^2 + y^2 - 1 - d*x^2*y^2` with
field-element operations and compares with zero. -/
def isOnCurve (pt : Point) : Prop :=
  feAdd (feAdd (feNeg (feMul pt.1 pt.1)) (feMul pt.2 pt.2))
      (feNeg (feAdd (feMul (feMul (feMul pt.1 pt.1) (feMul pt.2 pt.2)) dStored) 1)) = 0

instance (pt : Point) : Decidable (isOnCurve pt) :=
  inferInstanceAs (Decidable (_ = _))

/-- Models `Jubjub.Add` (the allocating curve-level addition): the affine
twisted Edwards addition law with `a = -1`. -/
def curveAdd (p1 p2 : Point) : Point :=
  let x1y2 := feMul p1.1 p2.2
  let x2y1 := feMul p2.1 p1.2
  let y1y2 := feMul p1.2 p2.2
  let x1x2 := feMul p1.1 p2.1
  let common := feMul (feMul x1x2 y1y2) dStored
  let tmp1 := feModInverse (feAdd 1 common) (feAdd 1 common)
  let tmp2 := feModInverse (feSub 1 common) (feSub 1 common)
  (feMul (feAdd x1y2 x2y1) tmp1, feMul (feAdd y1y2 x1x2) tmp2)

/-- Models `Jubjub.Double` (the allocating curve-level doubling). -/
def curveDouble (p1 : Point) : Point :=
  let x1x1 := feMul p1.1 p1.1
  let y1y1 := feMul p1.2 p1.2
  let x1y1 := feMul p1.1 p1.2
  let common := feMul (feMul x1x1 y1y1) dStored
  let tmp1 := feModInverse (feAdd 1 common) (feAdd 1 common)
  let tmp2 := feModInverse (feSub 1 common) (feSub 1 common)
  (feMul (feAdd x1y1 x1y1) tmp1, feMul (feAdd y1y1 x1x1) tmp2)

/-- Models the in-place `Point.Add`: every operand value is computed into a
fresh temporary before the receiver's coordinates are written, so the result
depends only on the two operand points (also when the receiver aliases one of
them), and is embedded as a pure function of the operands. -/
def pointAdd (p1 p2 : Point) : Point :=
  let x1y2 := feMul p1.1 p2.2
  let x2y1 := feMul p2.1 p1.2
  let y1y2 := feMul p1.2 p2.2
  let x1x2 := feMul p1.1 p2.1
  let common := feMul (feMul x1x2 y1y2) dStored
  let tmpA := feModInverse (feAdd 1 common) (feAdd 1 common)
  let px := feMul (feAdd x1y2 x2y1) tmpA
  let tmpB := feModInverse (feSub 1 common) (feSub 1 common)
  let py := feMul (feAdd y1y2 x1x2) tmpB
  (px, py)

/-- Models the in-place `Point.Double`, embedded like `pointAdd`. -/
def pointDouble (p1 : Point) : Point :=
  let x1x1 := feMul p1.1 p1.1
  let y1y1 := feMul p1.2 p1.2
  let x1y1 := feMul p1.1 p1.2
  let common := feMul (feMul x1x1 y1y1) dStored
  let tmpA := feModInverse (feAdd 1 common) (feAdd 1 common)
  let px := feMul (feAdd x1y1 x1y1) tmpA
  let tmpB := feModInverse (feSub 1 common) (feSub 1 common)
  let py := feMul (feAdd y1y1 x1x1) tmpB
  (px, py)

/-- Models `Point.Neg`: `(-x, y)`. -/
def pointNeg (q : Point) : Point := (feNeg q.1, q.2)

/-! ### Scalar multiplication (`Jubjub.ScalarMult`)

The loop runs over the bit indices `BitLen-1, …, 0` of the scalar.  Stored
scalar values are always nonnegative, so the scalar is taken as `ℕ` here. -/

/-- Little-endian bit list of `k` (fuel-driven; empty for `k = 0`). -/
def bitsAux : ℕ → ℕ → List Bool
  | 0, _ => []
  | f + 1, k => if k = 0 then [] else (k % 2 = 1) :: bitsAux f (k / 2)

/-- Bits of `k`, most significant first — the traversal order of the
`ScalarMult` loop. -/
def natBits (k : ℕ) : List Bool := (bitsAux (k + 1) k).reverse

/-- One iteration of the `ScalarMult` loop.  For bit `0` the code runs
`r1.Add(r0, r1)` and then `r0.Double(r0)`; for bit `1` it runs
`r0.Add(r0, r1)` and then `r1.Double(r1)`.  In both cases the second line only
reads a point that the first line did not modify, so the iteration is a pure
update of the accumulator pair. -/
def ladderStep (r : Point × Point) (b : Bool) : Point × Point :=
  if b then (pointAdd r.1 r.2, pointDouble r.2) else (pointDouble r.1, pointAdd r.1 r.2)

/-- Models `Jubjub.ScalarMult`: fails with `ErrInvalidPoint` when the input is
not on the curve, otherwise runs the two-accumulator ladder with
`r0 = Identity()`, `r1 = point.Clone()` and returns `r0`. -/
def scalarMult (k : ℕ) (pt : Point) : Option Point :=
  if isOnCurve pt then some (List.foldl ladderStep (identityPt, pt) (natBits k)).1
  else none

/-- Models `Point.MulByCofactor`: `ScalarMult` by the cofactor scalar `8`.
The Go method dereferences the result unconditionally, so an off-curve
receiver would crash; the embedding keeps the `Option`. -/
def mulByCofactor (pt : Point) : Option Point := scalarMult 8 pt

/-! ### Modular square root (Go `big.Int.ModSqrt` for the modulus `p`)

`p - 1 = Q * 2^32` with `Q` odd.  Go's `ModSqrt` first computes the Jacobi
symbol of the input and returns `nil` for `-1` and the root `0` for `0`; for a
quadratic residue it runs Tonelli–Shanks with the least quadratic non-residue
`≥ 2`, which for this `p` is `5`.  For the prime `p` the Jacobi pre-check is
Euler's criterion, which is how the `-1` case is expressed below.  The two
square roots differ by negation and `UnmarshalBinary` re-normalizes the sign
of the returned root, so the root choice is not observable through any
operation of the package. -/

/-- Least `i` (up to the fuel) with `t^(2^i) = 1 mod p`. -/
def tsOrd : ℕ → ℕ → ℕ
  | 0, _ => 0
  | f + 1, t => if t = 1 then 0 else tsOrd f (t * t % P) + 1

/-- Main Tonelli–Shanks loop on the state `(M, c, t, r)`. -/
def tsLoop : ℕ → ℕ → ℕ → ℕ → ℕ → ℕ
  | 0, _, _, _, r => r
  | f + 1, M, c, t, r =>
    if t = 1 then r
    else
      let i := tsOrd M t
      let b := powMod c (2 ^ (M - i - 1)) P
      tsLoop f i (b * b % P) (t * (b * b % P) % P) (r * b % P)

/-- Tonelli–Shanks square root of `u` modulo `p` (for `u` a residue). -/
def tonelli (u : ℕ) : ℕ :=
  tsLoop 33 32 (powMod 5 ((P - 1) / 2 ^ 32) P) (powMod u ((P - 1) / 2 ^ 32) P)
    (powMod u (((P - 1) / 2 ^ 32 + 1) / 2) P)

/-- Models `big.Int.ModSqrt` with modulus `p`: `0` for a multiple of `p`,
`none` for a non-residue, a Tonelli–Shanks root otherwise. -/
def modSqrt (u : ℕ) : Option ℕ :=
  if u % P = 0 then some 0
  else if powMod u ((P - 1) / 2) P = 1 then some (tonelli (u % P)) else none

/-- Models `FieldElement.ModSqrt`: `ModSqrt` on the stored value. -/
def feModSqrt (x : ℤ) : Option ℤ := (modSqrt (x % (P : ℤ)).toNat).map (fun r => (r : ℕ))

/-! ### Compressed Edwards encoding (`MarshalBinary` / `UnmarshalBinary`) -/

/-- Models `Point.MarshalBinary`: the 32 canonical little-endian bytes of `y`,
with bit 7 of byte 31 OR-ed with the least significant bit of `x`'s canonical
encoding. -/
def marshal (pt : Point) : List ℕ :=
  let feX := feToBytes pt.1
  let feY := feToBytes pt.2
  feY.take 31 ++ [Nat.lor (feY.getD 31 0) (Nat.shiftLeft (Nat.land (feX.getD 0 0) 1) 7)]

/-- Sign bit extracted by `UnmarshalBinary`: `in[31] >> 7`. -/
def signBit (c : List ℕ) : ℕ := Nat.shiftRight (c.getD 31 0) 7

/-- Input bytes with the sign bit cleared: `in[31] &= 0x7F`. -/
def clearedBytes (c : List ℕ) : List ℕ := c.take 31 ++ [Nat.land (c.getD 31 0) 0x7F]

/-- Candidate `u = (y^2 - 1) * (d*y^2 + 1)⁻¹` computed by `UnmarshalBinary`
from the cleared input (the inverse via `ModInverse` with the receiver equal
to the argument). -/
def uValue (c : List ℕ) : ℤ :=
  let y := feFromBytes (clearedBytes c)
  let yy := feMul y y
  let u := feSub yy 1
  let v := feAdd (feMul yy dStored) 1
  feMul u (feModInverse v v)

/-- Models `Point.UnmarshalBinary` (and `Jubjub.Decompress`): the four-stage
decompression — length check, sign extraction, root recovery, sign selection
with the final on-curve validation. -/
def unmarshal (c : List ℕ) : Option Point :=
  if c.length ≠ 32 then none
  else
    match feModSqrt (uValue c) with
    | none => none
    | some r =>
      let dec := Nat.land ((feToBytes r).getD 0 0) 1
      let x := if signBit c ≠ dec then feNeg r else r
      let y := feFromBytes (clearedBytes c)
      if isOnCurve (x, y) then some (x, y) else none

/-- Models `Jubjub.Generator`: decompression of the canonical encoding of the
generator's `y`-coordinate `11`. -/
def generator : Option Point := unmarshal (feToBytes 11)

/-- Models `Jubjub.SubgroupGenerator`: the generator multiplied by the
cofactor. -/
def subgroupGenerator : Option Point := generator.bind mulByCofactor

/-! ### Primality of the field order

`P` is prime; this is established by a Lucas certificate with witness `7`,
a primitive root modulo `P`, using the known factorization
`P - 1 = 2^32 · 3 · 11 · 19 · 10177 · 125527 · 859267 · 906349² · 2508409 ·
2529403 · 52437899 · 254760293²`. -/

theorem natCast_powMod (b e m : ℕ) : ((powMod b e m : ℕ) : ZMod m) = (b : ZMod m) ^ e := by
  rw [powMod_eq, ZMod.natCast_mod, Nat.cast_pow]

theorem powMod_cast_ne_one {b e : ℕ} (h : powMod b e P % P ≠ 1 % P) :
    ((b : ℕ) : ZMod P) ^ e ≠ 1 := by
  intro hcontra
  rw [← natCast_powMod] at hcontra
  have h1 : ((powMod b e P : ℕ) : ZMod P) = ((1 : ℕ) : ZMod P) := by simpa using hcontra
  exact h ((ZMod.natCast_eq_natCast_iff' _ _ _).mp h1)

theorem powMod_cast_ne_one_mod {m b e : ℕ} (h : powMod b e m % m ≠ 1 % m) :
    ((b : ℕ) : ZMod m) ^ e ≠ 1 := by
  intro hc
  rw [← natCast_powMod] at hc
  have h1 : ((powMod b e m : ℕ) : ZMod m) = ((1 : ℕ) : ZMod m) := by simpa using hc
  exact h ((ZMod.natCast_eq_natCast_iff' _ _ _).mp h1)

theorem prime_609743 : Nat.Prime 609743 := by
  have hcast : (5 : ZMod 609743) = ((5 : ℕ) : ZMod 609743) := by norm_cast
  apply lucas_primality 609743 5
  · rw [hcast, ← natCast_powMod, show powMod 5 (609743 - 1) 609743 = 1 from by decide]
    exact Nat.cast_one
  · intro q hq hdvd
    rw [hcast]
    rw [show (609743 : ℕ) - 1 = 2 * (7 * (97 * (449))) from by decide] at hdvd
    rcases (Nat.Prime.dvd_mul hq).mp hdvd with h | hdvd
    · have hqe : q = 2 := (Nat.prime_dvd_prime_iff_eq hq (by norm_num)).mp h
      subst hqe
      exact powMod_cast_ne_one_mod (by decide)
    rcases (Nat.Prime.dvd_mul hq).mp hdvd with h | hdvd
    · have hqe : q = 7 := (Nat.prime_dvd_prime_iff_eq hq (by norm_num)).mp h
      subst hqe
      exact powMod_cast_ne_one_mod (by decide)
    rcases (Nat.Prime.dvd_mul hq).mp hdvd with h | hdvd
    · have hqe : q = 97 := (Nat.prime_dvd_prime_iff_eq hq (by norm_num)).mp h
      subst hqe
      exact powMod_cast_ne_one_mod (by decide)
    have hqe : q = 449 := (Nat.prime_dvd_prime_iff_eq hq (by norm_num)).mp hdvd
    subst hqe
    exact powMod_cast_ne_one_mod (by decide)

theorem prime_859267 : Nat.Prime 859267 := by
  have hcast : (2 : ZMod 859267) = ((2 : ℕ) : ZMod 859267) := by norm_cast
  apply lucas_primality 859267 2
  · rw [hcast, ← natCast_powMod, show powMod 2 (859267 - 1) 859267 = 1 from by decide]
    exact Nat.cast_one
  · intro q hq hdvd
    rw [hcast]
    rw [show (859267 : ℕ) - 1 = 2 * (3 ^ 2 * (47737)) from by decide] at hdvd
    rcases (Nat.Prime.dvd_mul hq).mp hdvd with h | hdvd
    · have hqe : q = 2 := (Nat.prime_dvd_prime_iff_eq hq (by norm_num)).mp h
      subst hqe
      exact powMod_cast_ne_one_mod (by decide)
    rcases (Nat.Prime.dvd_mul hq).mp hdvd with h | hdvd
    · have hqe : q = 3 := (Nat.prime_dvd_prime_iff_eq hq (by norm_num)).mp (hq.dvd_of_dvd_pow h)
      subst hqe
      exact powMod_cast_ne_one_mod (by decide)
    have hqe : q = 47737 := (Nat.prime_dvd_prime_iff_eq hq (by norm_num)).mp hdvd
    subst hqe
    exact powMod_cast_ne_one_mod (by decide)

theorem prime_906349 : Nat.Prime 906349 := by
  have hcast : (2 : ZMod 906349) = ((2 : ℕ) : ZMod 906349) := by norm_cast
  apply lucas_primality 906349 2
  · rw [hcast, ← natCast_powMod, show powMod 2 (906349 - 1) 906349 = 1 from by decide]
    exact Nat.cast_one
  · intro q hq hdvd
    rw [hcast]
    rw [show (906349 : ℕ) - 1 = 2 ^ 2 * (3 * (47 * (1607))) from by decide] at hdvd
    rcases (Nat.Prime.dvd_mul hq).mp hdvd with h | hdvd
    · have hqe : q = 2 := (Nat.prime_dvd_prime_iff_eq hq (by norm_num)).mp (hq.dvd_of_dvd_pow h)
      subst hqe
      exact powMod_cast_ne_one_mod (by decide)
    rcases (Nat.Prime.dvd_mul hq).mp hdvd with h | hdvd
    · have hqe : q = 3 := (Nat.prime_dvd_prime_iff_eq hq (by norm_num)).mp h
      subst hqe
      exact powMod_cast_ne_one_mod (by decide)
    rcases (Nat.Prime.dvd_mul hq).mp hdvd with h | hdvd
    · have hqe : q = 47 := (Nat.prime_dvd_prime_iff_eq hq (by norm_num)).mp h
      subst hqe
      exact powMod_cast_ne_one_mod (by decide)
    have hqe : q = 1607 := (Nat.prime_dvd_prime_iff_eq hq (by norm_num)).mp hdvd
    subst hqe
    exact powMod_cast_ne_one_mod (by decide)

theorem prime_2508409 : Nat.Prime 2508409 := by
  have hcast : (11 : ZMod 2508409) = ((11 : ℕ) : ZMod 2508409) := by norm_cast
  apply lucas_primality 2508409 11
  · rw [hcast, ← natCast_powMod, show powMod 11 (2508409 - 1) 2508409 = 1 from by decide]
    exact Nat.cast_one
  · intro q hq hdvd
    rw [hcast]
    rw [show (2508409 : ℕ) - 1 = 2 ^ 3 * (3 ^ 4 * (7 ^ 2 * (79))) from by decide] at hdvd
    rcases (Nat.Prime.dvd_mul hq).mp hdvd with h | hdvd
    · have hqe : q = 2 := (Nat.prime_dvd_prime_iff_eq hq (by norm_num)).mp (hq.dvd_of_dvd_pow h)
      subst hqe
      exact powMod_cast_ne_one_mod (by decide)
    rcases (Nat.Prime.dvd_mul hq).mp hdvd with h | hdvd
    · have hqe : q = 3 := (Nat.prime_dvd_prime_iff_eq hq (by norm_num)).mp (hq.dvd_of_dvd_pow h)
      subst hqe
      exact powMod_cast_ne_one_mod (by decide)
    rcases (Nat.Prime.dvd_mul hq).mp hdvd with h | hdvd
    · have hqe : q = 7 := (Nat.prime_dvd_prime_iff_eq hq (by norm_num)).mp (hq.dvd_of_dvd_pow h)
      subst hqe
      exact powMod_cast_ne_one_mod (by decide)
    have hqe : q = 79 := (Nat.prime_dvd_prime_iff_eq hq (by norm_num)).mp hdvd
    subst hqe
    exact powMod_cast_ne_one_mod (by decide)

theorem prime_2529403 : Nat.Prime 2529403 := by
  have hcast : (2 : ZMod 2529403) = ((2 : ℕ) : ZMod 2529403) := by norm_cast
  apply lucas_primality 2529403 2
  · rw [hcast, ← natCast_powMod, show powMod 2 (2529403 - 1) 2529403 = 1 from by decide]
    exact Nat.cast_one
  · intro q hq hdvd
    rw [hcast]
    rw [show (2529403 : ℕ) - 1 = 2 * (3 * (23 * (18329))) from by decide] at hdvd
    rcases (Nat.Prime.dvd_mul hq).mp hdvd with h | hdvd
    · have hqe : q = 2 := (Nat.prime_dvd_prime_iff_eq hq (by norm_num)).mp h
      subst hqe
      exact powMod_cast_ne_one_mod (by decide)
    rcases (Nat.Prime.dvd_mul hq).mp hdvd with h | hdvd
    · have hqe : q = 3 := (Nat.prime_dvd_prime_iff_eq hq (by norm_num)).mp h
      subst hqe
      exact powMod_cast_ne_one_mod (by decide)
    rcases (Nat.Prime.dvd_mul hq).mp hdvd with h | hdvd
    · have hqe : q = 23 := (Nat.prime_dvd_prime_iff_eq hq (by norm_num)).mp h
      subst hqe
      exact powMod_cast_ne_one_mod (by decide)
    have hqe : q = 18329 := (Nat.prime_dvd_prime_iff_eq hq (by norm_num)).mp hdvd
    subst hqe
    exact powMod_cast_ne_one_mod (by decide)

theorem prime_2653753 : Nat.Prime 2653753 := by
  have hcast : (5 : ZMod 2653753) = ((5 : ℕ) : ZMod 2653753) := by norm_cast
  apply lucas_primality 2653753 5
  · rw [hcast, ← natCast_powMod, show powMod 5 (2653753 - 1) 2653753 = 1 from by decide]
    exact Nat.cast_one
  · intro q hq hdvd
    rw [hcast]
    rw [show (2653753 : ℕ) - 1 = 2 ^ 3 * (3 * (110573)) from by decide] at hdvd
    rcases (Nat.Prime.dvd_mul hq).mp hdvd with h | hdvd
    · have hqe : q = 2 := (Nat.prime_dvd_prime_iff_eq hq (by norm_num)).mp (hq.dvd_of_dvd_pow h)
      subst hqe
      exact powMod_cast_ne_one_mod (by decide)
    rcases (Nat.Prime.dvd_mul hq).mp hdvd with h | hdvd
    · have hqe : q = 3 := (Nat.prime_dvd_prime_iff_eq hq (by norm_num)).mp h
      subst hqe
      exact powMod_cast_ne_one_mod (by decide)
    have hqe : q = 110573 := (Nat.prime_dvd_prime_iff_eq hq (by norm_num)).mp hdvd
    subst hqe
    exact powMod_cast_ne_one_mod (by decide)

theorem prime_52437899 : Nat.Prime 52437899 := by
  have hcast : (2 : ZMod 52437899) = ((2 : ℕ) : ZMod 52437899) := by norm_cast
  apply lucas_primality 52437899 2
  · rw [hcast, ← natCast_powMod, show powMod 2 (52437899 - 1) 52437899 = 1 from by decide]
    exact Nat.cast_one
  · intro q hq hdvd
    rw [hcast]
    rw [show (52437899 : ℕ) - 1 = 2 * (43 * (609743)) from by decide] at hdvd
    rcases (Nat.Prime.dvd_mul hq).mp hdvd with h | hdvd
    · have hqe : q = 2 := (Nat.prime_dvd_prime_iff_eq hq (by norm_num)).mp h
      subst hqe
      exact powMod_cast_ne_one_mod (by decide)
    rcases (Nat.Prime.dvd_mul hq).mp hdvd with h | hdvd
    · have hqe : q = 43 := (Nat.prime_dvd_prime_iff_eq hq (by norm_num)).mp h
      subst hqe
      exact powMod_cast_ne_one_mod (by decide)
    have hqe : q = 609743 := (Nat.prime_dvd_prime_iff_eq hq prime_609743).mp hdvd
    subst hqe
    exact powMod_cast_ne_one_mod (by decide)

theorem prime_63690073 : Nat.Prime 63690073 := by
  have hcast : (7 : ZMod 63690073) = ((7 : ℕ) : ZMod 63690073) := by norm_cast
  apply lucas_primality 63690073 7
  · rw [hcast, ← natCast_powMod, show powMod 7 (63690073 - 1) 63690073 = 1 from by decide]
    exact Nat.cast_one
  · intro q hq hdvd
    rw [hcast]
    rw [show (63690073 : ℕ) - 1 = 2 ^ 3 * (3 * (2653753)) from by decide] at hdvd
    rcases (Nat.Prime.dvd_mul hq).mp hdvd with h | hdvd
    · have hqe : q = 2 := (Nat.prime_dvd_prime_iff_eq hq (by norm_num)).mp (hq.dvd_of_dvd_pow h)
      subst hqe
      exact powMod_cast_ne_one_mod (by decide)
    rcases (Nat.Prime.dvd_mul hq).mp hdvd with h | hdvd
    · have hqe : q = 3 := (Nat.prime_dvd_prime_iff_eq hq (by norm_num)).mp h
      subst hqe
      exact powMod_cast_ne_one_mod (by decide)
    have hqe : q = 2653753 := (Nat.prime_dvd_prime_iff_eq hq prime_2653753).mp hdvd
    subst hqe
    exact powMod_cast_ne_one_mod (by decide)

theorem prime_254760293 : Nat.Prime 254760293 := by
  have hcast : (2 : ZMod 254760293) = ((2 : ℕ) : ZMod 254760293) := by norm_cast
  apply lucas_primality 254760293 2
  · rw [hcast, ← natCast_powMod, show powMod 2 (254760293 - 1) 254760293 = 1 from by decide]
    exact Nat.cast_one
  · intro q hq hdvd
    rw [hcast]
    rw [show (254760293 : ℕ) - 1 = 2 ^ 2 * (63690073) from by decide] at hdvd
    rcases (Nat.Prime.dvd_mul hq).mp hdvd with h | hdvd
    · have hqe : q = 2 := (Nat.prime_dvd_prime_iff_eq hq (by norm_num)).mp (hq.dvd_of_dvd_pow h)
      subst hqe
      exact powMod_cast_ne_one_mod (by decide)
    have hqe : q = 63690073 := (Nat.prime_dvd_prime_iff_eq hq prime_63690073).mp hdvd
    subst hqe
    exact powMod_cast_ne_one_mod (by decide)

theorem pm1_factorization : P - 1 =
    2 ^ 32 * (3 * (11 * (19 * (10177 * (125527 * (859267 * (906349 ^ 2 *
      (2508409 * (2529403 * (52437899 * 254760293 ^ 2)))))))))) := by decide

theorem pm1_prime_divisors {q : ℕ} (hq : q.Prime) (hdvd : q ∣ P - 1) :
    q = 2 ∨ q = 3 ∨ q = 11 ∨ q = 19 ∨ q = 10177 ∨ q = 125527 ∨ q = 859267 ∨
    q = 906349 ∨ q = 2508409 ∨ q = 2529403 ∨ q = 52437899 ∨ q = 254760293 := by
  rw [pm1_factorization] at hdvd
  have two : Nat.Prime 2 := by norm_num
  have three : Nat.Prime 3 := by norm_num
  have eleven : Nat.Prime 11 := by norm_num
  have nineteen : Nat.Prime 19 := by norm_num
  have f5 : Nat.Prime 10177 := by norm_num
  have f6 : Nat.Prime 125527 := by norm_num
  have f7 : Nat.Prime 859267 := prime_859267
  have f8 : Nat.Prime 906349 := prime_906349
  have f9 : Nat.Prime 2508409 := prime_2508409
  have f10 : Nat.Prime 2529403 := prime_2529403
  have f11 : Nat.Prime 52437899 := prime_52437899
  have f12 : Nat.Prime 254760293 := prime_254760293
  rcases (Nat.Prime.dvd_mul hq).mp hdvd with h | hdvd
  · exact Or.inl ((Nat.prime_dvd_prime_iff_eq hq two).mp (hq.dvd_of_dvd_pow h))
  rcases (Nat.Prime.dvd_mul hq).mp hdvd with h | hdvd
  · exact Or.inr (Or.inl ((Nat.prime_dvd_prime_iff_eq hq three).mp h))
  rcases (Nat.Prime.dvd_mul hq).mp hdvd with h | hdvd
  · exact Or.inr (Or.inr (Or.inl ((Nat.prime_dvd_prime_iff_eq hq eleven).mp h)))
  rcases (Nat.Prime.dvd_mul hq).mp hdvd with h | hdvd
  · refine Or.inr (Or.inr (Or.inr (Or.inl ?_)))
    exact (Nat.prime_dvd_prime_iff_eq hq nineteen).mp h
  rcases (Nat.Prime.dvd_mul hq).mp hdvd with h | hdvd
  · refine Or.inr (Or.inr (Or.inr (Or.inr (Or.inl ?_))))
    exact (Nat.prime_dvd_prime_iff_eq hq f5).mp h
  rcases (Nat.Prime.dvd_mul hq).mp hdvd with h | hdvd
  · refine Or.inr (Or.inr (Or.inr (Or.inr (Or.inr (Or.inl ?_)))))
    exact (Nat.prime_dvd_prime_iff_eq hq f6).mp h
  rcases (Nat.Prime.dvd_mul hq).mp hdvd with h | hdvd
  · refine Or.inr (Or.inr (Or.inr (Or.inr (Or.inr (Or.inr (Or.inl ?_))))))
    exact (Nat.prime_dvd_prime_iff_eq hq f7).mp h
  rcases (Nat.Prime.dvd_mul hq).mp hdvd with h | hdvd
  · refine Or.inr (Or.inr (Or.inr (Or.inr (Or.inr (Or.inr (Or.inr (Or.inl ?_)))))))
    exact (Nat.prime_dvd_prime_iff_eq hq f8).mp (hq.dvd_of_dvd_pow h)
  rcases (Nat.Prime.dvd_mul hq).mp hdvd with h | hdvd
  · refine Or.inr (Or.inr (Or.inr (Or.inr (Or.inr (Or.inr (Or.inr (Or.inr (Or.inl ?_))))))))
    exact (Nat.prime_dvd_prime_iff_eq hq f9).mp h
  rcases (Nat.Prime.dvd_mul hq).mp hdvd with h | hdvd
  · refine Or.inr (Or.inr (Or.inr (Or.inr (Or.inr (Or.inr (Or.inr (Or.inr (Or.inr (Or.inl ?_)))))))))
    exact (Nat.prime_dvd_prime_iff_eq hq f10).mp h
  rcases (Nat.Prime.dvd_mul hq).mp hdvd with h | hdvd
  · refine Or.inr (Or.inr (Or.inr (Or.inr (Or.inr (Or.inr (Or.inr (Or.inr (Or.inr (Or.inr (Or.inl ?_))))))))))
    exact (Nat.prime_dvd_prime_iff_eq hq f11).mp h
  · refine Or.inr (Or.inr (Or.inr (Or.inr (Or.inr (Or.inr (Or.inr (Or.inr (Or.inr (Or.inr (Or.inr ?_))))))))))
    exact (Nat.prime_dvd_prime_iff_eq hq f12).mp (hq.dvd_of_dvd_pow hdvd)

theorem P_prime : Nat.Prime P := by
  have h7 : (7 : ZMod P) = ((7 : ℕ) : ZMod P) := by norm_cast
  apply lucas_primality P 7
  · rw [h7, ← natCast_powMod, show powMod 7 (P - 1) P = 1 from by decide]
    exact Nat.cast_one
  · intro q hq hdvd
    rw [h7]
    rcases pm1_prime_divisors hq hdvd with rfl | rfl | rfl | rfl | rfl | rfl | rfl | rfl |
      rfl | rfl | rfl | rfl
    · exact powMod_cast_ne_one (by decide)
    · exact powMod_cast_ne_one (by decide)
    · exact powMod_cast_ne_one (by decide)
    · exact powMod_cast_ne_one (by decide)
    · exact powMod_cast_ne_one (by decide)
    · exact powMod_cast_ne_one (by decide)
    · exact powMod_cast_ne_one (by decide)
    · exact powMod_cast_ne_one (by decide)
    · exact powMod_cast_ne_one (by decide)
    · exact powMod_cast_ne_one (by decide)
    · exact powMod_cast_ne_one (by decide)
    · exact powMod_cast_ne_one (by decide)

instance : Fact (Nat.Prime P) := ⟨P_prime⟩

/-! ### The `ZMod P` view of field-element operations

Stored field-element values are related to the field `ZMod P` by the cast
`Int.cast`; all operations commute with this cast, and `feModInverse` maps to
the field inverse whenever its argument is nonzero in `ZMod P`. -/

@[simp] theorem castF_feAdd (x y : ℤ) : ((feAdd x y : ℤ) : ZMod P) = (x : ZMod P) + (y : ZMod P) := by
  unfold feAdd
  rw [ZMod.intCast_mod]
  push_cast
  ring

@[simp] theorem castF_feSub (x y : ℤ) : ((feSub x y : ℤ) : ZMod P) = (x : ZMod P) - (y : ZMod P) := by
  unfold feSub
  rw [ZMod.intCast_mod]
  push_cast
  ring

@[simp] theorem castF_feMul (x y : ℤ) : ((feMul x y : ℤ) : ZMod P) = (x : ZMod P) * (y : ZMod P) := by
  unfold feMul
  rw [ZMod.intCast_mod]
  push_cast
  ring

@[simp] theorem castF_feNeg (x : ℤ) : ((feNeg x : ℤ) : ZMod P) = -(x : ZMod P) := by
  unfold feNeg
  rw [ZMod.intCast_mod]
  push_cast
  ring

theorem pow_P_sub_two {a : ZMod P} (h : a ≠ 0) : a ^ (P - 2) = a⁻¹ := by
  have h1 : a * a ^ (P - 2) = 1 := by
    have h2 : P - 2 + 1 = P - 1 := by
      have := P_prime.two_le
      omega
    rw [← pow_succ', h2, ZMod.pow_card_sub_one_eq_one h]
  exact (inv_eq_of_mul_eq_one_right h1).symm

theorem castF_feModInverse {v : ℤ} (h : (v : ZMod P) ≠ 0) (z : ℤ) :
    ((feModInverse z v : ℤ) : ZMod P) = (v : ZMod P)⁻¹ := by
  unfold feModInverse
  have hm : v % (P : ℤ) ≠ 0 := by
    intro h0
    apply h
    rw [← ZMod.intCast_mod v P, h0, Int.cast_zero]
  rw [if_neg hm, Int.cast_natCast, natCast_powMod]
  have hnn : (0 : ℤ) ≤ v % (P : ℤ) := Int.emod_nonneg v (by norm_num [P])
  have hcast : (((v % (P : ℤ)).toNat : ℕ) : ZMod P) = (v : ZMod P) := by
    have h1 : (((v % (P : ℤ)).toNat : ℕ) : ℤ) = v % (P : ℤ) := Int.toNat_of_nonneg hnn
    calc (((v % (P : ℤ)).toNat : ℕ) : ZMod P)
        = ((((v % (P : ℤ)).toNat : ℕ) : ℤ) : ZMod P) := by rw [Int.cast_natCast]
      _ = ((v % (P : ℤ) : ℤ) : ZMod P) := by rw [h1]
      _ = (v : ZMod P) := ZMod.intCast_mod v P
  rw [hcast, pow_P_sub_two h]

/-! ### The Edwards group law over `ZMod P` -/

/-- Value of the curve coefficient `d` in `ZMod P`. -/
def dF : ZMod P := ((dStored : ℤ) : ZMod P)

/-- The curve equation over `ZMod P`. -/
def edOnCurve (a : ZMod P × ZMod P) : Prop :=
  -a.1 ^ 2 + a.2 ^ 2 = 1 + dF * a.1 ^ 2 * a.2 ^ 2

/-- The affine twisted Edwards addition law over `ZMod P` (`a = -1`). -/
def edAdd (a b : ZMod P × ZMod P) : ZMod P × ZMod P :=
  ((a.1 * b.2 + b.1 * a.2) * (1 + dF * (a.1 * b.1) * (a.2 * b.2))⁻¹,
   (a.2 * b.2 + a.1 * b.1) * (1 - dF * (a.1 * b.1) * (a.2 * b.2))⁻¹)

/-- Cast of a stored point into `ZMod P × ZMod P`. -/
def castPt (pt : Point) : ZMod P × ZMod P := ((pt.1 : ZMod P), (pt.2 : ZMod P))

theorem emod_eq_zero_iff_castF (a : ℤ) : a % (P : ℤ) = 0 ↔ ((a : ℤ) : ZMod P) = 0 := by
  rw [ZMod.intCast_zmod_eq_zero_iff_dvd]
  exact ⟨Int.dvd_of_emod_eq_zero, Int.emod_eq_zero_of_dvd⟩

theorem feAdd_eq_zero_iff (x y : ℤ) : feAdd x y = 0 ↔ (x : ZMod P) + (y : ZMod P) = 0 := by
  unfold feAdd
  rw [emod_eq_zero_iff_castF]
  push_cast
  rfl

theorem isOnCurve_iff (pt : Point) : isOnCurve pt ↔ edOnCurve (castPt pt) := by
  unfold isOnCurve
  rw [feAdd_eq_zero_iff]
  simp only [castF_feAdd, castF_feNeg, castF_feMul, Int.cast_one]
  unfold edOnCurve castPt dF
  constructor
  · intro h
    linear_combination h
  · intro h
    linear_combination h

/-! ### Completeness of the addition law

The Jubjub coefficient `d` is a quadratic non-residue and `-1` is a square
modulo `P`, so for points on the curve the denominators
`1 ± d·x1·x2·y1·y2` of the addition law never vanish (Bernstein et al.,
"Twisted Edwards curves", Thm. 3.3, instantiated at `a = -1`). -/

instance : Fact (2 < P) := ⟨by norm_num [P]⟩

theorem two_ne_zero_F : (2 : ZMod P) ≠ 0 := by
  have h2 : (2 : ZMod P) = ((2 : ℕ) : ZMod P) := by norm_cast
  rw [h2, Ne, ZMod.natCast_zmod_eq_zero_iff_dvd]
  intro hdvd
  have := Nat.eq_zero_of_dvd_of_lt hdvd (by norm_num [P])
  simp at this

theorem natCast_ne_one_F {L : ℕ} (hL : L % P ≠ 1 % P) : ((L : ℕ) : ZMod P) ≠ 1 := by
  intro h
  have h1 : ((L : ℕ) : ZMod P) = ((1 : ℕ) : ZMod P) := by simpa using h
  exact hL ((ZMod.natCast_eq_natCast_iff' _ _ _).mp h1)

theorem natCast_ne_zero_F {L : ℕ} (h0 : L ≠ 0) (hlt : L < P) : ((L : ℕ) : ZMod P) ≠ 0 := by
  rw [Ne, ZMod.natCast_zmod_eq_zero_iff_dvd]
  intro hdvd
  exact h0 (Nat.eq_zero_of_dvd_of_lt hdvd hlt)

theorem natCast_P_sub_one : ((P - 1 : ℕ) : ZMod P) = -1 := by
  have h1 : ((P - 1 : ℕ) : ZMod P) = ((P : ℕ) : ZMod P) - ((1 : ℕ) : ZMod P) :=
    Nat.cast_sub (by norm_num [P])
  rw [h1, ZMod.natCast_self]
  simp

/-- Stored `d` is congruent to this canonical value. -/
theorem dF_eq_natCast : dF =
    ((19257038036680949359750312669786877991949435402254120286184196891950884077233 : ℕ) :
      ZMod P) := by
  unfold dF dStored
  rw [← ZMod.intCast_mod,
    show (-10240 * ((powMod 10241 (P - 2) P : ℕ) : ℤ)) % ((P : ℕ) : ℤ) =
      ((19257038036680949359750312669786877991949435402254120286184196891950884077233 : ℕ) : ℤ)
      from by decide]
  rw [Int.cast_natCast]

theorem negdF_not_square : ¬IsSquare (-dF) := by
  have hval : -dF =
      ((33178837138445241119697427838399087845741117098273517536419461807987697107280 : ℕ) :
        ZMod P) := by
    rw [dF_eq_natCast]
    have hle :
        (19257038036680949359750312669786877991949435402254120286184196891950884077233 : ℕ) ≤
          P := by norm_num [P]
    have hsub :
        ((33178837138445241119697427838399087845741117098273517536419461807987697107280 : ℕ) :
          ZMod P) = ((P : ℕ) : ZMod P) -
          ((19257038036680949359750312669786877991949435402254120286184196891950884077233 : ℕ) :
            ZMod P) := by
      rw [← Nat.cast_sub hle]
      norm_num [P]
    rw [hsub, ZMod.natCast_self]
    ring
  intro hsq
  rw [hval] at hsq
  have hne :
      ((33178837138445241119697427838399087845741117098273517536419461807987697107280 : ℕ) :
        ZMod P) ≠ 0 :=
    natCast_ne_zero_F (by norm_num) (by norm_num [P])
  have heul := (ZMod.euler_criterion P hne).mp hsq
  rw [← natCast_powMod,
    show powMod 33178837138445241119697427838399087845741117098273517536419461807987697107280
      (P / 2) P = P - 1 from by decide, natCast_P_sub_one] at heul
  exact ZMod.neg_one_ne_one heul

/-- Square root of `-1` in `ZMod P`. -/
theorem sqrtNegOne_sq :
    ((3465144826073652318776269530687742778270252468765361963008 : ℕ) : ZMod P) ^ 2 = -1 := by
  have h : ((3465144826073652318776269530687742778270252468765361963008 *
      3465144826073652318776269530687742778270252468765361963008 % P : ℕ) : ZMod P) =
      ((P - 1 : ℕ) : ZMod P) := by
    rw [show (3465144826073652318776269530687742778270252468765361963008 *
      3465144826073652318776269530687742778270252468765361963008 % P : ℕ) = P - 1 from by decide]
  rw [ZMod.natCast_mod, Nat.cast_mul, natCast_P_sub_one] at h
  rw [pow_two, h]

/-- Key step of the completeness proof over an abstract field: a point pair on
the `a = 1` curve with non-square coefficient `e` cannot make the plus
denominator vanish. -/
theorem edwards_denom_aux {K : Type} [Field K] {e x1 y1 x2 y2 : K}
    (he : ¬IsSquare e) (h2ne : (2 : K) ≠ 0)
    (h1 : x1 ^ 2 + y1 ^ 2 = 1 + e * x1 ^ 2 * y1 ^ 2)
    (h2 : x2 ^ 2 + y2 ^ 2 = 1 + e * x2 ^ 2 * y2 ^ 2)
    (hH : 1 + e * (x1 * x2 * y1 * y2) = 0) : False := by
  have hx1 : x1 ≠ 0 := by
    rintro rfl
    exact one_ne_zero (α := K) (by linear_combination hH)
  have hy1 : y1 ≠ 0 := by
    rintro rfl
    exact one_ne_zero (α := K) (by linear_combination hH)
  have hx2 : x2 ≠ 0 := by
    rintro rfl
    exact one_ne_zero (α := K) (by linear_combination hH)
  have hy2 : y2 ≠ 0 := by
    rintro rfl
    exact one_ne_zero (α := K) (by linear_combination hH)
  have key1 : e * x2 ^ 2 * y2 ^ 2 * (x1 + y1) ^ 2 = (x2 - y2) ^ 2 := by
    linear_combination (e * x2 ^ 2 * y2 ^ 2) * h1 - h2 +
      (e * (x1 * x2 * y1 * y2) - 1 + 2 * x2 * y2) * hH
  have key2 : e * x2 ^ 2 * y2 ^ 2 * (x1 - y1) ^ 2 = (x2 + y2) ^ 2 := by
    linear_combination (e * x2 ^ 2 * y2 ^ 2) * h1 - h2 +
      (e * (x1 * x2 * y1 * y2) - 1 - 2 * x2 * y2) * hH
  by_cases hpm : x1 + y1 = 0
  · by_cases hmm : x1 - y1 = 0
    · apply hx1
      have h2x : (2 : K) * x1 = 0 := by linear_combination hpm + hmm
      rcases mul_eq_zero.mp h2x with h | h
      · exact absurd h h2ne
      · exact h
    · apply he
      have hden : x2 * y2 * (x1 - y1) ≠ 0 := mul_ne_zero (mul_ne_zero hx2 hy2) hmm
      refine ⟨(x2 + y2) / (x2 * y2 * (x1 - y1)), ?_⟩
      rw [div_mul_div_comm, eq_div_iff (mul_ne_zero hden hden)]
      linear_combination key2
  · apply he
    have hden : x2 * y2 * (x1 + y1) ≠ 0 := mul_ne_zero (mul_ne_zero hx2 hy2) hpm
    refine ⟨(x2 - y2) / (x2 * y2 * (x1 + y1)), ?_⟩
    rw [div_mul_div_comm, eq_div_iff (mul_ne_zero hden hden)]
    linear_combination key1


theorem edDenominators {a b : ZMod P × ZMod P} (ha : edOnCurve a) (hb : edOnCurve b) :
    1 + dF * (a.1 * b.1) * (a.2 * b.2) ≠ 0 ∧ 1 - dF * (a.1 * b.1) * (a.2 * b.2) ≠ 0 := by
  obtain ⟨x1, y1⟩ := a
  obtain ⟨x2, y2⟩ := b
  unfold edOnCurve at ha hb
  simp only at ha hb ⊢
  have hi : ((3465144826073652318776269530687742778270252468765361963008 : ℕ) : ZMod P) ^ 2
      = -1 := sqrtNegOne_sq
  set i : ZMod P := ((3465144826073652318776269530687742778270252468765361963008 : ℕ) : ZMod P)
  have h1p : (i * x1) ^ 2 + y1 ^ 2 = 1 + (-dF) * (i * x1) ^ 2 * y1 ^ 2 := by
    linear_combination ha + (x1 ^ 2 + dF * x1 ^ 2 * y1 ^ 2) * hi
  have h2p : (i * x2) ^ 2 + y2 ^ 2 = 1 + (-dF) * (i * x2) ^ 2 * y2 ^ 2 := by
    linear_combination hb + (x2 ^ 2 + dF * x2 ^ 2 * y2 ^ 2) * hi
  have h1m : (i * x1) ^ 2 + (-y1) ^ 2 = 1 + (-dF) * (i * x1) ^ 2 * (-y1) ^ 2 := by
    linear_combination h1p
  constructor
  · intro hz
    refine edwards_denom_aux negdF_not_square two_ne_zero_F h1p h2p ?_
    linear_combination hz - (dF * x1 * x2 * y1 * y2) * hi
  · intro hz
    refine edwards_denom_aux negdF_not_square two_ne_zero_F h1m h2p ?_
    linear_combination hz + (dF * x1 * x2 * y1 * y2) * hi

theorem edAdd_onCurve {a b : ZMod P × ZMod P} (ha : edOnCurve a) (hb : edOnCurve b) :
    edOnCurve (edAdd a b) := by
  obtain ⟨hA, hB⟩ := edDenominators ha hb
  obtain ⟨x1, y1⟩ := a
  obtain ⟨x2, y2⟩ := b
  unfold edOnCurve edAdd at *
  simp only at *
  field_simp
  linear_combination (dF ^ 3 * x1 ^ 2 * y1 ^ 2 * x2 ^ 4 * y2 ^ 4 - dF ^ 2 * x1 ^ 2 * x2 ^ 4 * y2 ^ 4 + dF ^ 2 * y1 ^ 2 * x2 ^ 4 * y2 ^ 4 - dF ^ 2 * x2 ^ 4 * y2 ^ 4 - dF * x1 ^ 2 * x2 ^ 4 * y2 ^ 2 + dF * x1 ^ 2 * x2 ^ 2 * y2 ^ 4 + dF * y1 ^ 2 * x2 ^ 4 * y2 ^ 2 - dF * y1 ^ 2 * x2 ^ 2 * y2 ^ 4 - 2 * dF * x2 ^ 4 * y2 ^ 4 - 2 * x2 ^ 4 * y2 ^ 2 + 2 * x2 ^ 2 * y2 ^ 4 - 2 * dF * x2 ^ 2 * y2 ^ 2 + x2 ^ 4 - 4 * x2 ^ 2 * y2 ^ 2 + y2 ^ 4) * ha +
    (dF * x1 ^ 4 * x2 ^ 2 * y2 ^ 2 + dF * y1 ^ 4 * x2 ^ 2 * y2 ^ 2 + 2 * dF * x1 ^ 2 * x2 ^ 2 * y2 ^ 2 - 2 * dF * y1 ^ 2 * x2 ^ 2 * y2 ^ 2 + 2 * x1 ^ 2 * x2 ^ 2 * y2 ^ 2 - 2 * y1 ^ 2 * x2 ^ 2 * y2 ^ 2 + dF * x2 ^ 2 * y2 ^ 2 - x1 ^ 2 * x2 ^ 2 + x1 ^ 2 * y2 ^ 2 + y1 ^ 2 * x2 ^ 2 - y1 ^ 2 * y2 ^ 2 + 2 * x2 ^ 2 * y2 ^ 2 - x2 ^ 2 + y2 ^ 2 + 1) * hb

theorem edAdd_comm (u v : ZMod P × ZMod P) : edAdd u v = edAdd v u := by
  unfold edAdd
  have h1 : 1 + dF * (u.1 * v.1) * (u.2 * v.2) = 1 + dF * (v.1 * u.1) * (v.2 * u.2) := by ring
  have h2 : 1 - dF * (u.1 * v.1) * (u.2 * v.2) = 1 - dF * (v.1 * u.1) * (v.2 * u.2) := by ring
  rw [h1, h2]
  simp only [Prod.mk.injEq]
  constructor
  · ring
  · ring

/-- Adding a point given as a pair of fractions `(N1/A, N2/B)`: the result is
again a pair of single fractions.  Holds for any values of the denominators of
the outer addition thanks to junk-value inverses (`0⁻¹ = 0`). -/
theorem edAdd_fraction (c : ZMod P × ZMod P) (N1 N2 A B : ZMod P)
    (hA : A ≠ 0) (hB : B ≠ 0) :
    edAdd (N1 * A⁻¹, N2 * B⁻¹) c =
      ((N1 * B * c.2 + c.1 * (N2 * A)) * (A * B + dF * (N1 * c.1) * (N2 * c.2))⁻¹,
       (N2 * A * c.2 + N1 * B * c.1) * (A * B - dF * (N1 * c.1) * (N2 * c.2))⁻¹) := by
  have hAB : A * B ≠ 0 := mul_ne_zero hA hB
  have hABc : (A * B)⁻¹ * (A * B) = 1 := inv_mul_cancel₀ hAB
  have key : ∀ N Q : ZMod P, N * (A * B)⁻¹ * (Q * (A * B)⁻¹)⁻¹ = N * Q⁻¹ := by
    intro N Q
    rw [mul_inv Q (A * B)⁻¹, inv_inv]
    calc N * (A * B)⁻¹ * (Q⁻¹ * (A * B))
        = N * Q⁻¹ * ((A * B)⁻¹ * (A * B)) := by ring
      _ = N * Q⁻¹ := by rw [hABc, mul_one]
  unfold edAdd
  simp only [Prod.mk.injEq]
  constructor
  · have h1 : N1 * A⁻¹ * c.2 + c.1 * (N2 * B⁻¹) =
        (N1 * B * c.2 + c.1 * (N2 * A)) * (A * B)⁻¹ := by
      field_simp
      try ring
    have h2 : 1 + dF * (N1 * A⁻¹ * c.1) * (N2 * B⁻¹ * c.2) =
        (A * B + dF * (N1 * c.1) * (N2 * c.2)) * (A * B)⁻¹ := by
      field_simp
      try ring
    rw [h1, h2, key]
  · have h1 : N2 * B⁻¹ * c.2 + N1 * A⁻¹ * c.1 =
        (N2 * A * c.2 + N1 * B * c.1) * (A * B)⁻¹ := by
      field_simp
      try ring
    have h2 : 1 - dF * (N1 * A⁻¹ * c.1) * (N2 * B⁻¹ * c.2) =
        (A * B - dF * (N1 * c.1) * (N2 * c.2)) * (A * B)⁻¹ := by
      field_simp
      try ring
    rw [h1, h2, key]

/-- The cleared plus-denominator of an addition with a fraction point is
nonzero whenever the uncleared one is. -/
theorem edAdd_denom_plus (c : ZMod P × ZMod P) (N1 N2 A B : ZMod P)
    (hA : A ≠ 0) (hB : B ≠ 0)
    (h : 1 + dF * (N1 * A⁻¹ * c.1) * (N2 * B⁻¹ * c.2) ≠ 0) :
    A * B + dF * (N1 * c.1) * (N2 * c.2) ≠ 0 := by
  intro h0
  apply h
  have h2 : 1 + dF * (N1 * A⁻¹ * c.1) * (N2 * B⁻¹ * c.2) =
      (A * B + dF * (N1 * c.1) * (N2 * c.2)) * (A * B)⁻¹ := by
    field_simp
    try ring
  rw [h2, h0, zero_mul]

/-- Minus-denominator version of `edAdd_denom_plus`. -/
theorem edAdd_denom_minus (c : ZMod P × ZMod P) (N1 N2 A B : ZMod P)
    (hA : A ≠ 0) (hB : B ≠ 0)
    (h : 1 - dF * (N1 * A⁻¹ * c.1) * (N2 * B⁻¹ * c.2) ≠ 0) :
    A * B - dF * (N1 * c.1) * (N2 * c.2) ≠ 0 := by
  intro h0
  apply h
  have h2 : 1 - dF * (N1 * A⁻¹ * c.1) * (N2 * B⁻¹ * c.2) =
      (A * B - dF * (N1 * c.1) * (N2 * c.2)) * (A * B)⁻¹ := by
    field_simp
    try ring
  rw [h2, h0, zero_mul]

theorem edAdd_assoc {a b c : ZMod P × ZMod P}
    (ha : edOnCurve a) (hb : edOnCurve b) (hc : edOnCurve c) :
    edAdd (edAdd a b) c = edAdd a (edAdd b c) := by
  obtain ⟨hAab, hBab⟩ := edDenominators ha hb
  obtain ⟨hAbc, hBbc⟩ := edDenominators hb hc
  obtain ⟨hA1, hB1⟩ := edDenominators (edAdd_onCurve ha hb) hc
  obtain ⟨hA2, hB2⟩ := edDenominators (edAdd_onCurve hb hc) ha
  obtain ⟨x1, y1⟩ := a
  obtain ⟨x2, y2⟩ := b
  obtain ⟨x3, y3⟩ := c
  unfold edOnCurve at ha hb hc
  dsimp only at ha hb hc
  unfold edAdd at hA1 hB1 hA2 hB2
  dsimp only at hA1 hB1 hA2 hB2
  have hQx := edAdd_denom_plus (x3, y3) (x1 * y2 + x2 * y1) (y1 * y2 + x1 * x2)
    (1 + dF * (x1 * x2) * (y1 * y2)) (1 - dF * (x1 * x2) * (y1 * y2)) hAab hBab hA1
  have hQy := edAdd_denom_minus (x3, y3) (x1 * y2 + x2 * y1) (y1 * y2 + x1 * x2)
    (1 + dF * (x1 * x2) * (y1 * y2)) (1 - dF * (x1 * x2) * (y1 * y2)) hAab hBab hB1
  have hQxr := edAdd_denom_plus (x1, y1) (x2 * y3 + x3 * y2) (y2 * y3 + x2 * x3)
    (1 + dF * (x2 * x3) * (y2 * y3)) (1 - dF * (x2 * x3) * (y2 * y3)) hAbc hBbc hA2
  have hQyr := edAdd_denom_minus (x1, y1) (x2 * y3 + x3 * y2) (y2 * y3 + x2 * x3)
    (1 + dF * (x2 * x3) * (y2 * y3)) (1 - dF * (x2 * x3) * (y2 * y3)) hAbc hBbc hB2
  rw [show edAdd (x1, y1) (x2, y2) =
      ((x1 * y2 + x2 * y1) * (1 + dF * (x1 * x2) * (y1 * y2))⁻¹,
       (y1 * y2 + x1 * x2) * (1 - dF * (x1 * x2) * (y1 * y2))⁻¹) from rfl,
    edAdd_fraction (x3, y3) (x1 * y2 + x2 * y1) (y1 * y2 + x1 * x2)
      (1 + dF * (x1 * x2) * (y1 * y2)) (1 - dF * (x1 * x2) * (y1 * y2)) hAab hBab,
    edAdd_comm (x1, y1) (edAdd (x2, y2) (x3, y3)),
    show edAdd (x2, y2) (x3, y3) =
      ((x2 * y3 + x3 * y2) * (1 + dF * (x2 * x3) * (y2 * y3))⁻¹,
       (y2 * y3 + x2 * x3) * (1 - dF * (x2 * x3) * (y2 * y3))⁻¹) from rfl,
    edAdd_fraction (x1, y1) (x2 * y3 + x3 * y2) (y2 * y3 + x2 * x3)
      (1 + dF * (x2 * x3) * (y2 * y3)) (1 - dF * (x2 * x3) * (y2 * y3)) hAbc hBbc]
  dsimp only
  simp only [Prod.mk.injEq]
  constructor
  · rw [← div_eq_mul_inv, ← div_eq_mul_inv, div_eq_div_iff hQx hQxr]
    linear_combination (-dF ^ 2 * x1 * x2 ^ 4 * y2 ^ 3 * x3 ^ 2 * y3 - dF ^ 2 * x1 * x2 ^ 3 * y2 ^ 4 * x3 * y3 ^ 2 + dF ^ 2 * y1 * x2 ^ 4 * y2 ^ 3 * x3 * y3 ^ 2 + dF ^ 2 * y1 * x2 ^ 3 * y2 ^ 4 * x3 ^ 2 * y3 - dF * x1 * x2 ^ 4 * y2 * x3 ^ 2 * y3 - dF * x1 * x2 ^ 3 * y2 ^ 2 * x3 ^ 3 + dF * x1 * x2 ^ 2 * y2 ^ 3 * y3 ^ 3 + dF * x1 * x2 * y2 ^ 4 * x3 * y3 ^ 2 + dF * y1 * x2 ^ 4 * y2 * x3 * y3 ^ 2 + dF * y1 * x2 ^ 3 * y2 ^ 2 * y3 ^ 3 - dF * y1 * x2 ^ 2 * y2 ^ 3 * x3 ^ 3 - dF * y1 * x2 * y2 ^ 4 * x3 ^ 2 * y3 - dF * x1 * x2 ^ 3 * y2 ^ 2 * x3 - dF * x1 * x2 ^ 2 * y2 ^ 3 * y3 - dF * y1 * x2 ^ 3 * y2 ^ 2 * y3 - dF * y1 * x2 ^ 2 * y2 ^ 3 * x3) * ha +
        (dF ^ 2 * x1 ^ 2 * y1 * x2 ^ 2 * y2 * x3 ^ 3 * y3 ^ 2 - dF ^ 2 * x1 ^ 2 * y1 * x2 * y2 ^ 2 * x3 ^ 2 * y3 ^ 3 - dF ^ 2 * x1 * y1 ^ 2 * x2 ^ 2 * y2 * x3 ^ 2 * y3 ^ 3 + dF ^ 2 * x1 * y1 ^ 2 * x2 * y2 ^ 2 * x3 ^ 3 * y3 ^ 2 + dF * x1 ^ 3 * x2 ^ 2 * y2 * x3 ^ 2 * y3 + dF * x1 ^ 3 * x2 * y2 ^ 2 * x3 * y3 ^ 2 + dF * x1 ^ 3 * x2 * x3 ^ 3 * y3 ^ 2 + dF * x1 ^ 3 * y2 * x3 ^ 2 * y3 ^ 3 - dF * x1 ^ 2 * y1 * x2 ^ 2 * y2 * x3 * y3 ^ 2 - dF * x1 ^ 2 * y1 * x2 * y2 ^ 2 * x3 ^ 2 * y3 + dF * x1 ^ 2 * y1 * x2 * x3 ^ 2 * y3 ^ 3 + dF * x1 ^ 2 * y1 * y2 * x3 ^ 3 * y3 ^ 2 - dF * x1 * y1 ^ 2 * x2 ^ 2 * y2 * x3 ^ 2 * y3 - dF * x1 * y1 ^ 2 * x2 * y2 ^ 2 * x3 * y3 ^ 2 - dF * x1 * y1 ^ 2 * x2 * x3 ^ 3 * y3 ^ 2 - dF * x1 * y1 ^ 2 * y2 * x3 ^ 2 * y3 ^ 3 + dF * y1 ^ 3 * x2 ^ 2 * y2 * x3 * y3 ^ 2 + dF * y1 ^ 3 * x2 * y2 ^ 2 * x3 ^ 2 * y3 - dF * y1 ^ 3 * x2 * x3 ^ 2 * y3 ^ 3 - dF * y1 ^ 3 * y2 * x3 ^ 3 * y3 ^ 2 + dF * x1 * x2 ^ 2 * y2 * x3 ^ 2 * y3 + dF * x1 * x2 * y2 ^ 2 * x3 * y3 ^ 2 + dF * x1 * x2 * x3 ^ 3 * y3 ^ 2 + dF * x1 * y2 * x3 ^ 2 * y3 ^ 3 - dF * y1 * x2 ^ 2 * y2 * x3 * y3 ^ 2 - dF * y1 * x2 * y2 ^ 2 * x3 ^ 2 * y3 + dF * y1 * x2 * x3 ^ 2 * y3 ^ 3 + dF * y1 * y2 * x3 ^ 3 * y3 ^ 2 + x1 ^ 3 * x2 * x3 ^ 3 - x1 ^ 3 * x2 * x3 * y3 ^ 2 + x1 ^ 3 * y2 * x3 ^ 2 * y3 - x1 ^ 3 * y2 * y3 ^ 3 + x1 ^ 2 * y1 * x2 * x3 ^ 2 * y3 - x1 ^ 2 * y1 * x2 * y3 ^ 3 + x1 ^ 2 * y1 * y2 * x3 ^ 3 - x1 ^ 2 * y1 * y2 * x3 * y3 ^ 2 - x1 * y1 ^ 2 * x2 * x3 ^ 3 + x1 * y1 ^ 2 * x2 * x3 * y3 ^ 2 - x1 * y1 ^ 2 * y2 * x3 ^ 2 * y3 + x1 * y1 ^ 2 * y2 * y3 ^ 3 - y1 ^ 3 * x2 * x3 ^ 2 * y3 + y1 ^ 3 * x2 * y3 ^ 3 - y1 ^ 3 * y2 * x3 ^ 3 + y1 ^ 3 * y2 * x3 * y3 ^ 2 + x1 ^ 3 * x2 * x3 + x1 ^ 3 * y2 * y3 + x1 ^ 2 * y1 * x2 * y3 + x1 ^ 2 * y1 * y2 * x3 - x1 * y1 ^ 2 * x2 * x3 - x1 * y1 ^ 2 * y2 * y3 + x1 * x2 * x3 ^ 3 - x1 * x2 * x3 * y3 ^ 2 + x1 * y2 * x3 ^ 2 * y3 - x1 * y2 * y3 ^ 3 - y1 ^ 3 * x2 * y3 - y1 ^ 3 * y2 * x3 + y1 * x2 * x3 ^ 2 * y3 - y1 * x2 * y3 ^ 3 + y1 * y2 * x3 ^ 3 - y1 * y2 * x3 * y3 ^ 2 + x1 * x2 * x3 + x1 * y2 * y3 + y1 * x2 * y3 + y1 * y2 * x3) * hb +
        (-dF * x1 ^ 2 * y1 * x2 ^ 2 * y2 * x3 + dF * x1 ^ 2 * y1 * x2 * y2 ^ 2 * y3 + dF * x1 * y1 ^ 2 * x2 ^ 2 * y2 * y3 - dF * x1 * y1 ^ 2 * x2 * y2 ^ 2 * x3 - x1 ^ 3 * x2 ^ 3 * x3 - x1 ^ 3 * x2 ^ 2 * y2 * y3 + x1 ^ 3 * x2 * y2 ^ 2 * x3 + x1 ^ 3 * y2 ^ 3 * y3 - x1 ^ 2 * y1 * x2 ^ 3 * y3 - x1 ^ 2 * y1 * x2 ^ 2 * y2 * x3 + x1 ^ 2 * y1 * x2 * y2 ^ 2 * y3 + x1 ^ 2 * y1 * y2 ^ 3 * x3 + x1 * y1 ^ 2 * x2 ^ 3 * x3 + x1 * y1 ^ 2 * x2 ^ 2 * y2 * y3 - x1 * y1 ^ 2 * x2 * y2 ^ 2 * x3 - x1 * y1 ^ 2 * y2 ^ 3 * y3 + y1 ^ 3 * x2 ^ 3 * y3 + y1 ^ 3 * x2 ^ 2 * y2 * x3 - y1 ^ 3 * x2 * y2 ^ 2 * y3 - y1 ^ 3 * y2 ^ 3 * x3 - x1 ^ 3 * x2 * x3 - x1 ^ 3 * y2 * y3 - x1 ^ 2 * y1 * x2 * y3 - x1 ^ 2 * y1 * y2 * x3 + x1 * y1 ^ 2 * x2 * x3 + x1 * y1 ^ 2 * y2 * y3 - x1 * x2 ^ 3 * x3 - x1 * x2 ^ 2 * y2 * y3 + x1 * x2 * y2 ^ 2 * x3 + x1 * y2 ^ 3 * y3 + y1 ^ 3 * x2 * y3 + y1 ^ 3 * y2 * x3 - y1 * x2 ^ 3 * y3 - y1 * x2 ^ 2 * y2 * x3 + y1 * x2 * y2 ^ 2 * y3 + y1 * y2 ^ 3 * x3 - x1 * x2 * x3 - x1 * y2 * y3 - y1 * x2 * y3 - y1 * y2 * x3) * hc
  · rw [← div_eq_mul_inv, ← div_eq_mul_inv, div_eq_div_iff hQy hQyr]
    linear_combination (dF ^ 2 * x1 * x2 ^ 4 * y2 ^ 3 * x3 * y3 ^ 2 + dF ^ 2 * x1 * x2 ^ 3 * y2 ^ 4 * x3 ^ 2 * y3 - dF ^ 2 * y1 * x2 ^ 4 * y2 ^ 3 * x3 ^ 2 * y3 - dF ^ 2 * y1 * x2 ^ 3 * y2 ^ 4 * x3 * y3 ^ 2 + dF * x1 * x2 ^ 4 * y2 * x3 * y3 ^ 2 + dF * x1 * x2 ^ 3 * y2 ^ 2 * y3 ^ 3 - dF * x1 * x2 ^ 2 * y2 ^ 3 * x3 ^ 3 - dF * x1 * x2 * y2 ^ 4 * x3 ^ 2 * y3 - dF * y1 * x2 ^ 4 * y2 * x3 ^ 2 * y3 - dF * y1 * x2 ^ 3 * y2 ^ 2 * x3 ^ 3 + dF * y1 * x2 ^ 2 * y2 ^ 3 * y3 ^ 3 + dF * y1 * x2 * y2 ^ 4 * x3 * y3 ^ 2 - dF * x1 * x2 ^ 3 * y2 ^ 2 * y3 - dF * x1 * x2 ^ 2 * y2 ^ 3 * x3 - dF * y1 * x2 ^ 3 * y2 ^ 2 * x3 - dF * y1 * x2 ^ 2 * y2 ^ 3 * y3) * ha +
        (dF ^ 2 * x1 ^ 2 * y1 * x2 ^ 2 * y2 * x3 ^ 2 * y3 ^ 3 - dF ^ 2 * x1 ^ 2 * y1 * x2 * y2 ^ 2 * x3 ^ 3 * y3 ^ 2 - dF ^ 2 * x1 * y1 ^ 2 * x2 ^ 2 * y2 * x3 ^ 3 * y3 ^ 2 + dF ^ 2 * x1 * y1 ^ 2 * x2 * y2 ^ 2 * x3 ^ 2 * y3 ^ 3 - dF * x1 ^ 3 * x2 ^ 2 * y2 * x3 * y3 ^ 2 - dF * x1 ^ 3 * x2 * y2 ^ 2 * x3 ^ 2 * y3 + dF * x1 ^ 3 * x2 * x3 ^ 2 * y3 ^ 3 + dF * x1 ^ 3 * y2 * x3 ^ 3 * y3 ^ 2 + dF * x1 ^ 2 * y1 * x2 ^ 2 * y2 * x3 ^ 2 * y3 + dF * x1 ^ 2 * y1 * x2 * y2 ^ 2 * x3 * y3 ^ 2 + dF * x1 ^ 2 * y1 * x2 * x3 ^ 3 * y3 ^ 2 + dF * x1 ^ 2 * y1 * y2 * x3 ^ 2 * y3 ^ 3 + dF * x1 * y1 ^ 2 * x2 ^ 2 * y2 * x3 * y3 ^ 2 + dF * x1 * y1 ^ 2 * x2 * y2 ^ 2 * x3 ^ 2 * y3 - dF * x1 * y1 ^ 2 * x2 * x3 ^ 2 * y3 ^ 3 - dF * x1 * y1 ^ 2 * y2 * x3 ^ 3 * y3 ^ 2 - dF * y1 ^ 3 * x2 ^ 2 * y2 * x3 ^ 2 * y3 - dF * y1 ^ 3 * x2 * y2 ^ 2 * x3 * y3 ^ 2 - dF * y1 ^ 3 * x2 * x3 ^ 3 * y3 ^ 2 - dF * y1 ^ 3 * y2 * x3 ^ 2 * y3 ^ 3 - dF * x1 * x2 ^ 2 * y2 * x3 * y3 ^ 2 - dF * x1 * x2 * y2 ^ 2 * x3 ^ 2 * y3 + dF * x1 * x2 * x3 ^ 2 * y3 ^ 3 + dF * x1 * y2 * x3 ^ 3 * y3 ^ 2 + dF * y1 * x2 ^ 2 * y2 * x3 ^ 2 * y3 + dF * y1 * x2 * y2 ^ 2 * x3 * y3 ^ 2 + dF * y1 * x2 * x3 ^ 3 * y3 ^ 2 + dF * y1 * y2 * x3 ^ 2 * y3 ^ 3 + x1 ^ 3 * x2 * x3 ^ 2 * y3 - x1 ^ 3 * x2 * y3 ^ 3 + x1 ^ 3 * y2 * x3 ^ 3 - x1 ^ 3 * y2 * x3 * y3 ^ 2 + x1 ^ 2 * y1 * x2 * x3 ^ 3 - x1 ^ 2 * y1 * x2 * x3 * y3 ^ 2 + x1 ^ 2 * y1 * y2 * x3 ^ 2 * y3 - x1 ^ 2 * y1 * y2 * y3 ^ 3 - x1 * y1 ^ 2 * x2 * x3 ^ 2 * y3 + x1 * y1 ^ 2 * x2 * y3 ^ 3 - x1 * y1 ^ 2 * y2 * x3 ^ 3 + x1 * y1 ^ 2 * y2 * x3 * y3 ^ 2 - y1 ^ 3 * x2 * x3 ^ 3 + y1 ^ 3 * x2 * x3 * y3 ^ 2 - y1 ^ 3 * y2 * x3 ^ 2 * y3 + y1 ^ 3 * y2 * y3 ^ 3 + x1 ^ 3 * x2 * y3 + x1 ^ 3 * y2 * x3 + x1 ^ 2 * y1 * x2 * x3 + x1 ^ 2 * y1 * y2 * y3 - x1 * y1 ^ 2 * x2 * y3 - x1 * y1 ^ 2 * y2 * x3 + x1 * x2 * x3 ^ 2 * y3 - x1 * x2 * y3 ^ 3 + x1 * y2 * x3 ^ 3 - x1 * y2 * x3 * y3 ^ 2 - y1 ^ 3 * x2 * x3 - y1 ^ 3 * y2 * y3 + y1 * x2 * x3 ^ 3 - y1 * x2 * x3 * y3 ^ 2 + y1 * y2 * x3 ^ 2 * y3 - y1 * y2 * y3 ^ 3 + x1 * x2 * y3 + x1 * y2 * x3 + y1 * x2 * x3 + y1 * y2 * y3) * hb +
        (-dF * x1 ^ 2 * y1 * x2 ^ 2 * y2 * y3 + dF * x1 ^ 2 * y1 * x2 * y2 ^ 2 * x3 + dF * x1 * y1 ^ 2 * x2 ^ 2 * y2 * x3 - dF * x1 * y1 ^ 2 * x2 * y2 ^ 2 * y3 - x1 ^ 3 * x2 ^ 3 * y3 - x1 ^ 3 * x2 ^ 2 * y2 * x3 + x1 ^ 3 * x2 * y2 ^ 2 * y3 + x1 ^ 3 * y2 ^ 3 * x3 - x1 ^ 2 * y1 * x2 ^ 3 * x3 - x1 ^ 2 * y1 * x2 ^ 2 * y2 * y3 + x1 ^ 2 * y1 * x2 * y2 ^ 2 * x3 + x1 ^ 2 * y1 * y2 ^ 3 * y3 + x1 * y1 ^ 2 * x2 ^ 3 * y3 + x1 * y1 ^ 2 * x2 ^ 2 * y2 * x3 - x1 * y1 ^ 2 * x2 * y2 ^ 2 * y3 - x1 * y1 ^ 2 * y2 ^ 3 * x3 + y1 ^ 3 * x2 ^ 3 * x3 + y1 ^ 3 * x2 ^ 2 * y2 * y3 - y1 ^ 3 * x2 * y2 ^ 2 * x3 - y1 ^ 3 * y2 ^ 3 * y3 - x1 ^ 3 * x2 * y3 - x1 ^ 3 * y2 * x3 - x1 ^ 2 * y1 * x2 * x3 - x1 ^ 2 * y1 * y2 * y3 + x1 * y1 ^ 2 * x2 * y3 + x1 * y1 ^ 2 * y2 * x3 - x1 * x2 ^ 3 * y3 - x1 * x2 ^ 2 * y2 * x3 + x1 * x2 * y2 ^ 2 * y3 + x1 * y2 ^ 3 * x3 + y1 ^ 3 * x2 * x3 + y1 ^ 3 * y2 * y3 - y1 * x2 ^ 3 * x3 - y1 * x2 ^ 2 * y2 * y3 + y1 * x2 * y2 ^ 2 * x3 + y1 * y2 ^ 3 * y3 - x1 * x2 * y3 - x1 * y2 * x3 - y1 * x2 * x3 - y1 * y2 * y3) * hc

theorem curveAdd_eq_pointAdd (p1 p2 : Point) : curveAdd p1 p2 = pointAdd p1 p2 := rfl

theorem curveDouble_eq_pointDouble (p1 : Point) : curveDouble p1 = pointDouble p1 := rfl

theorem pointDouble_eq_pointAdd (p1 : Point) : pointDouble p1 = pointAdd p1 p1 := rfl

theorem pointAdd_castF {p1 p2 : Point}
    (h1 : edOnCurve (castPt p1)) (h2 : edOnCurve (castPt p2)) :
    castPt (pointAdd p1 p2) = edAdd (castPt p1) (castPt p2) := by
  obtain ⟨hA, hB⟩ := edDenominators h1 h2
  unfold castPt at hA hB ⊢
  dsimp only at hA hB
  have hAc : ((feAdd 1 (feMul (feMul (feMul p1.1 p2.1) (feMul p1.2 p2.2)) dStored) : ℤ) :
      ZMod P) = 1 + dF * ((p1.1 : ZMod P) * (p2.1 : ZMod P)) *
        ((p1.2 : ZMod P) * (p2.2 : ZMod P)) := by
    simp only [castF_feAdd, castF_feMul, Int.cast_one]
    unfold dF
    ring
  have hBc : ((feSub 1 (feMul (feMul (feMul p1.1 p2.1) (feMul p1.2 p2.2)) dStored) : ℤ) :
      ZMod P) = 1 - dF * ((p1.1 : ZMod P) * (p2.1 : ZMod P)) *
        ((p1.2 : ZMod P) * (p2.2 : ZMod P)) := by
    simp only [castF_feSub, castF_feMul, Int.cast_one]
    unfold dF
    ring
  have hAne : ((feAdd 1 (feMul (feMul (feMul p1.1 p2.1) (feMul p1.2 p2.2)) dStored) : ℤ) :
      ZMod P) ≠ 0 := by
    rw [hAc]
    exact hA
  have hBne : ((feSub 1 (feMul (feMul (feMul p1.1 p2.1) (feMul p1.2 p2.2)) dStored) : ℤ) :
      ZMod P) ≠ 0 := by
    rw [hBc]
    exact hB
  unfold pointAdd edAdd
  dsimp only
  simp only [Prod.mk.injEq]
  constructor
  · rw [castF_feMul, castF_feModInverse hAne, castF_feAdd, castF_feMul, castF_feMul, hAc]
  · rw [castF_feMul, castF_feModInverse hBne, castF_feAdd, castF_feMul, castF_feMul, hBc]

theorem pointAdd_onCurve {p1 p2 : Point} (h1 : isOnCurve p1) (h2 : isOnCurve p2) :
    isOnCurve (pointAdd p1 p2) := by
  rw [isOnCurve_iff] at h1 h2 ⊢
  rw [pointAdd_castF h1 h2]
  exact edAdd_onCurve h1 h2

/-! ### Iterated addition and the ladder -/

/-- The identity of the Edwards group over `ZMod P`. -/
def edIdentity : ZMod P × ZMod P := (0, 1)

theorem edIdentity_onCurve : edOnCurve edIdentity := by
  unfold edOnCurve edIdentity
  norm_num

theorem edAdd_identity_left (g : ZMod P × ZMod P) : edAdd edIdentity g = g := by
  unfold edAdd edIdentity
  dsimp only
  have h1 : 1 + dF * ((0 : ZMod P) * g.1) * (1 * g.2) = 1 := by ring
  have h2 : 1 - dF * ((0 : ZMod P) * g.1) * (1 * g.2) = 1 := by ring
  rw [h1, h2, inv_one, Prod.ext_iff]
  dsimp only
  constructor
  · ring
  · ring

theorem edAdd_identity_right (g : ZMod P × ZMod P) : edAdd g edIdentity = g := by
  rw [edAdd_comm]
  exact edAdd_identity_left g

/-- `k`-fold sum of `g` with itself, starting from the identity. -/
def edIter (g : ZMod P × ZMod P) : ℕ → ZMod P × ZMod P
  | 0 => edIdentity
  | k + 1 => edAdd (edIter g k) g

theorem edIter_onCurve {g : ZMod P × ZMod P} (hg : edOnCurve g) :
    ∀ k, edOnCurve (edIter g k)
  | 0 => edIdentity_onCurve
  | k + 1 => edAdd_onCurve (edIter_onCurve hg k) hg

theorem edIter_add {g : ZMod P × ZMod P} (hg : edOnCurve g) (m : ℕ) :
    ∀ k, edAdd (edIter g m) (edIter g k) = edIter g (m + k)
  | 0 => by
    rw [show edIter g 0 = edIdentity from rfl, edAdd_identity_right]
    rfl
  | k + 1 => by
    have step : edIter g (k + 1) = edAdd (edIter g k) g := rfl
    rw [step, ← edAdd_assoc (edIter_onCurve hg m) (edIter_onCurve hg k) hg,
      edIter_add hg m k]
    rfl

/-- Value accumulated by processing a most-significant-first bit list. -/
def foldBits (m : ℕ) : List Bool → ℕ
  | [] => m
  | b :: bs => foldBits (2 * m + (if b then 1 else 0)) bs

/-- Value of a least-significant-first bit list. -/
def bitsVal : List Bool → ℕ
  | [] => 0
  | b :: bs => (if b then 1 else 0) + 2 * bitsVal bs

theorem bitsAux_val : ∀ f k : ℕ, k < 2 ^ f → bitsVal (bitsAux f k) = k
  | 0, k, h => by
    have hk : k = 0 := by simpa using h
    subst hk
    simp [bitsAux, bitsVal]
  | f + 1, k, h => by
    by_cases hk : k = 0
    · subst hk
      simp [bitsAux, bitsVal]
    · have h2 : k / 2 < 2 ^ f := by
        have hp : (2 : ℕ) ^ (f + 1) = 2 ^ f * 2 := by ring
        exact (Nat.div_lt_iff_lt_mul (by norm_num)).mpr (hp ▸ h)
      simp only [bitsAux, hk, if_false, bitsVal]
      rw [bitsAux_val f (k / 2) h2]
      rcases Nat.even_or_odd k with he | ho
      · have : k % 2 = 0 := Nat.even_iff.mp he
        simp [this]
        omega
      · have : k % 2 = 1 := Nat.odd_iff.mp ho
        simp [this]
        omega

theorem foldBits_append (m : ℕ) (l1 l2 : List Bool) :
    foldBits m (l1 ++ l2) = foldBits (foldBits m l1) l2 := by
  induction l1 generalizing m with
  | nil => rfl
  | cons b t ih =>
    show foldBits (2 * m + (if b then 1 else 0)) (t ++ l2) = _
    rw [ih]
    rfl

theorem foldBits_reverse (l : List Bool) : ∀ m, foldBits m l.reverse = m * 2 ^ l.length + bitsVal l := by
  induction l with
  | nil => intro m; simp [foldBits, bitsVal]
  | cons b t ih =>
    intro m
    have hrev : (b :: t).reverse = t.reverse ++ [b] := by simp
    rw [hrev, foldBits_append, ih m]
    show foldBits (m * 2 ^ t.length + bitsVal t) [b] = m * 2 ^ (b :: t).length + bitsVal (b :: t)
    simp only [foldBits, bitsVal, List.length_cons]
    cases b <;> · simp; ring
  -- fallback: omega may be needed

theorem foldBits_natBits (k : ℕ) : foldBits 0 (natBits k) = k := by
  unfold natBits
  rw [foldBits_reverse]
  rw [bitsAux_val (k + 1) k (lt_of_lt_of_le (Nat.lt_two_pow k)
    (Nat.pow_le_pow_right (by norm_num) (Nat.le_succ k)))]
  simp

/-! ### Canonical coordinates and cast injectivity -/

/-- Both coordinates lie in `[0, p)`. -/
def canonicalPt (pt : Point) : Prop :=
  0 ≤ pt.1 ∧ pt.1 < (P : ℤ) ∧ 0 ≤ pt.2 ∧ pt.2 < (P : ℤ)

theorem feMul_canonical (x y : ℤ) : 0 ≤ feMul x y ∧ feMul x y < (P : ℤ) :=
  ⟨Int.emod_nonneg _ (by norm_num [P]), Int.emod_lt_of_pos _ (by norm_num [P])⟩

theorem pointAdd_canonical (p1 p2 : Point) : canonicalPt (pointAdd p1 p2) := by
  unfold pointAdd canonicalPt
  dsimp only
  exact ⟨(feMul_canonical _ _).1, (feMul_canonical _ _).2,
    (feMul_canonical _ _).1, (feMul_canonical _ _).2⟩

theorem identityPt_canonical : canonicalPt identityPt := by
  unfold canonicalPt identityPt
  norm_num [P]

theorem intCast_inj_of_canonical {a b : ℤ} (ha1 : 0 ≤ a) (ha2 : a < (P : ℤ))
    (hb1 : 0 ≤ b) (hb2 : b < (P : ℤ)) (hab : (a : ZMod P) = (b : ZMod P)) : a = b := by
  have hca : ((a.toNat : ℕ) : ZMod P) = (a : ZMod P) := by
    rw [show ((a.toNat : ℕ) : ZMod P) = (((a.toNat : ℕ) : ℤ) : ZMod P) from
      (Int.cast_natCast _).symm, Int.toNat_of_nonneg ha1]
  have hcb : ((b.toNat : ℕ) : ZMod P) = (b : ZMod P) := by
    rw [show ((b.toNat : ℕ) : ZMod P) = (((b.toNat : ℕ) : ℤ) : ZMod P) from
      (Int.cast_natCast _).symm, Int.toNat_of_nonneg hb1]
  have h' : ((a.toNat : ℕ) : ZMod P) = ((b.toNat : ℕ) : ZMod P) := by rw [hca, hcb, hab]
  have hv := congrArg ZMod.val h'
  rw [ZMod.val_cast_of_lt (by omega), ZMod.val_cast_of_lt (by omega)] at hv
  omega

theorem castPt_inj {p q : Point} (hp : canonicalPt p) (hq : canonicalPt q)
    (h : castPt p = castPt q) : p = q := by
  obtain ⟨h1, h2⟩ := Prod.ext_iff.mp h
  obtain ⟨hp1, hp2, hp3, hp4⟩ := hp
  obtain ⟨hq1, hq2, hq3, hq4⟩ := hq
  exact Prod.ext (intCast_inj_of_canonical hp1 hp2 hq1 hq2 h1)
    (intCast_inj_of_canonical hp3 hp4 hq3 hq4 h2)

/-! ### Correctness of the two-accumulator ladder -/

theorem ladder_foldl {pt : Point} (hpt : edOnCurve (castPt pt)) :
    ∀ (bs : List Bool) (r0 r1 : Point) (m : ℕ),
      castPt r0 = edIter (castPt pt) m → castPt r1 = edIter (castPt pt) (m + 1) →
      castPt (List.foldl ladderStep (r0, r1) bs).1 = edIter (castPt pt) (foldBits m bs) ∧
      castPt (List.foldl ladderStep (r0, r1) bs).2 = edIter (castPt pt) (foldBits m bs + 1)
  | [], r0, r1, m, h0, h1 => ⟨h0, h1⟩
  | b :: t, r0, r1, m, h0, h1 => by
    have hc0 : edOnCurve (castPt r0) := h0 ▸ edIter_onCurve hpt m
    have hc1 : edOnCurve (castPt r1) := h1 ▸ edIter_onCurve hpt (m + 1)
    cases b with
    | false =>
      have hr0 : castPt (pointDouble r0) = edIter (castPt pt) (2 * m) := by
        rw [pointDouble_eq_pointAdd, pointAdd_castF hc0 hc0, h0, edIter_add hpt m m,
          show m + m = 2 * m from by omega]
      have hr1 : castPt (pointAdd r0 r1) = edIter (castPt pt) (2 * m + 1) := by
        rw [pointAdd_castF hc0 hc1, h0, h1, edIter_add hpt m (m + 1),
          show m + (m + 1) = 2 * m + 1 from by omega]
      have hrec := ladder_foldl hpt t (pointDouble r0) (pointAdd r0 r1) (2 * m) hr0 hr1
      have hstep : List.foldl ladderStep (r0, r1) (false :: t) =
          List.foldl ladderStep (pointDouble r0, pointAdd r0 r1) t := rfl
      have hfb : foldBits m (false :: t) = foldBits (2 * m) t := by
        show foldBits (2 * m + 0) t = foldBits (2 * m) t
        rw [Nat.add_zero]
      rw [hstep, hfb]
      exact hrec
    | true =>
      have hr0 : castPt (pointAdd r0 r1) = edIter (castPt pt) (2 * m + 1) := by
        rw [pointAdd_castF hc0 hc1, h0, h1, edIter_add hpt m (m + 1),
          show m + (m + 1) = 2 * m + 1 from by omega]
      have hr1 : castPt (pointDouble r1) = edIter (castPt pt) (2 * m + 1 + 1) := by
        rw [pointDouble_eq_pointAdd, pointAdd_castF hc1 hc1, h1, edIter_add hpt (m + 1) (m + 1),
          show m + 1 + (m + 1) = 2 * m + 1 + 1 from by omega]
      have hrec := ladder_foldl hpt t (pointAdd r0 r1) (pointDouble r1) (2 * m + 1) hr0 hr1
      have hstep : List.foldl ladderStep (r0, r1) (true :: t) =
          List.foldl ladderStep (pointAdd r0 r1, pointDouble r1) t := rfl
      have hfb : foldBits m (true :: t) = foldBits (2 * m + 1) t := rfl
      rw [hstep, hfb]
      exact hrec

theorem ladder_canonical :
    ∀ (bs : List Bool) (r : Point × Point), bs ≠ [] →
      canonicalPt (List.foldl ladderStep r bs).1 ∧ canonicalPt (List.foldl ladderStep r bs).2
  | [], _, h => absurd rfl h
  | b :: t, r, _ => by
    rcases t with _ | ⟨b2, t2⟩
    · show canonicalPt (ladderStep r b).1 ∧ canonicalPt (ladderStep r b).2
      unfold ladderStep
      cases b
      · simp only [Bool.false_eq_true, if_false]
        exact ⟨by rw [pointDouble_eq_pointAdd]; exact pointAdd_canonical _ _,
          pointAdd_canonical _ _⟩
      · simp only [if_true]
        exact ⟨pointAdd_canonical _ _,
          by rw [pointDouble_eq_pointAdd]; exact pointAdd_canonical _ _⟩
    · have hstep : List.foldl ladderStep r (b :: b2 :: t2) =
          List.foldl ladderStep (ladderStep r b) (b2 :: t2) := rfl
      rw [hstep]
      exact ladder_canonical (b2 :: t2) (ladderStep r b) (by simp)

/-- `k` repeated curve-level additions of `pt` starting from the identity. -/
def codeIter (pt : Point) : ℕ → Point
  | 0 => identityPt
  | k + 1 => curveAdd (codeIter pt k) pt

theorem castPt_identityPt : castPt identityPt = edIdentity := by
  unfold castPt identityPt edIdentity
  norm_num

theorem codeIter_castF {pt : Point} (hpt : edOnCurve (castPt pt)) :
    ∀ k, castPt (codeIter pt k) = edIter (castPt pt) k
  | 0 => castPt_identityPt
  | k + 1 => by
    show castPt (curveAdd (codeIter pt k) pt) = edAdd (edIter (castPt pt) k) (castPt pt)
    rw [curveAdd_eq_pointAdd,
      pointAdd_castF ((codeIter_castF hpt k) ▸ edIter_onCurve hpt k) hpt,
      codeIter_castF hpt k]

theorem codeIter_canonical (pt : Point) : ∀ k, canonicalPt (codeIter pt k)
  | 0 => identityPt_canonical
  | k + 1 => by
    show canonicalPt (curveAdd (codeIter pt k) pt)
    rw [curveAdd_eq_pointAdd]
    exact pointAdd_canonical _ _

theorem natBits_nil_iff (k : ℕ) : natBits k = [] ↔ k = 0 := by
  constructor
  · intro h
    by_contra hk
    unfold natBits bitsAux at h
    rw [if_neg hk] at h
    simp at h
  · intro h
    subst h
    rfl

/-- Main correctness of `ScalarMult` on an on-curve input: the ladder computes
the `k`-fold repeated addition of the input point. -/
theorem scalarMult_eq_codeIter {pt : Point} (hpt : isOnCurve pt) (k : ℕ) :
    scalarMult k pt = some (codeIter pt k) := by
  have hptF : edOnCurve (castPt pt) := (isOnCurve_iff pt).mp hpt
  unfold scalarMult
  rw [if_pos hpt]
  congr 1
  rcases Nat.eq_zero_or_pos k with hk | hk
  · subst hk
    rfl
  · have hbits : natBits k ≠ [] := by
      rw [Ne, natBits_nil_iff]
      omega
    have hlad := ladder_foldl hptF (natBits k) identityPt pt 0 castPt_identityPt
      (by rw [show (0 + 1 : ℕ) = 1 from rfl,
        show edIter (castPt pt) 1 = edAdd (edIter (castPt pt) 0) (castPt pt) from rfl,
        show edIter (castPt pt) 0 = edIdentity from rfl, edAdd_identity_left])
    apply castPt_inj (ladder_canonical (natBits k) (identityPt, pt) hbits).1
      (codeIter_canonical pt k)
    rw [hlad.1, foldBits_natBits, codeIter_castF hptF k]

/-! ### Byte-level facts

Bitwise operations on byte values are related to `%` and `/` by bounded
enumeration; the 32-byte little-endian dump and the little-endian value are
mutually inverse in the relevant ranges. -/

theorem land127_eq (b : ℕ) (hb : b < 256) : Nat.land b 127 = b % 128 := by
  revert hb
  revert b
  decide

theorem shiftRight7_eq (b : ℕ) (hb : b < 256) : Nat.shiftRight b 7 = b / 128 := by
  revert hb
  revert b
  decide

theorem land1_eq (b : ℕ) (hb : b < 256) : Nat.land b 1 = b % 2 := by
  revert hb
  revert b
  decide

theorem lor_sign_eq : ∀ x < 128, ∀ s ≤ 1, Nat.lor x (Nat.shiftLeft s 7) = x + 128 * s := by
  decide

theorem toBytesLE_length : ∀ k v, (toBytesLE k v).length = k
  | 0, _ => rfl
  | k + 1, v => by
    show (v % 256 :: toBytesLE k (v / 256)).length = k + 1
    rw [List.length_cons, toBytesLE_length k]

theorem toBytesLE_lt : ∀ k v, ∀ b ∈ toBytesLE k v, b < 256
  | 0, _, b, hb => absurd hb (by simp [toBytesLE])
  | k + 1, v, b, hb => by
    rcases List.mem_cons.mp hb with h | h
    · subst h
      exact Nat.mod_lt _ (by norm_num)
    · exact toBytesLE_lt k (v / 256) b h

theorem leVal_toBytesLE : ∀ k v, v < 256 ^ k → leVal (toBytesLE k v) = v
  | 0, v, h => by
    have : v = 0 := by simpa using h
    subst this
    rfl
  | k + 1, v, h => by
    show v % 256 + 256 * leVal (toBytesLE k (v / 256)) = v
    rw [leVal_toBytesLE k (v / 256) (by
      rw [Nat.div_lt_iff_lt_mul (by norm_num : 0 < 256)]
      calc v < 256 ^ (k + 1) := h
        _ = 256 ^ k * 256 := by ring)]
    omega

theorem toBytesLE_leVal : ∀ (c : List ℕ), (∀ b ∈ c, b < 256) →
    toBytesLE c.length (leVal c) = c
  | [], _ => rfl
  | b :: t, h => by
    show (b + 256 * leVal t) % 256 :: toBytesLE t.length ((b + 256 * leVal t) / 256) = b :: t
    have hb : b < 256 := h b (List.mem_cons_self b t)
    have h1 : (b + 256 * leVal t) % 256 = b := by omega
    have h2 : (b + 256 * leVal t) / 256 = leVal t := by omega
    rw [h1, h2, toBytesLE_leVal t (fun x hx => h x (List.mem_cons_of_mem b hx))]

theorem clearedBytes_length {c : List ℕ} (hc : c.length = 32) :
    (clearedBytes c).length = 32 := by
  unfold clearedBytes
  rw [List.length_append, List.length_take, hc]
  rfl

theorem getD31_lt {c : List ℕ} (hc : c.length = 32) (hb : ∀ b ∈ c, b < 256) :
    c.getD 31 0 < 256 := by
  have hlt : 31 < c.length := by omega
  rw [List.getD_eq_getElem c 0 hlt]
  exact hb _ (List.getElem_mem hlt)

theorem clearedBytes_lt {c : List ℕ} (hc : c.length = 32) (hb : ∀ b ∈ c, b < 256) :
    ∀ b ∈ clearedBytes c, b < 256 := by
  intro b hmem
  unfold clearedBytes at hmem
  rcases List.mem_append.mp hmem with h | h
  · exact hb b (List.mem_of_mem_take h)
  · have hb1 : b = Nat.land (c.getD 31 0) 127 := by simpa using h
    rw [hb1, land127_eq _ (getD31_lt hc hb)]
    omega

/-! ### Structure of decompression -/

theorem tsLoop_lt : ∀ f M c t r, r < P → tsLoop f M c t r < P
  | 0, _, _, _, r, hr => hr
  | f + 1, M, c, t, r, hr => by
    show (if t = 1 then r else _) < P
    by_cases ht : t = 1
    · rw [if_pos ht]
      exact hr
    · rw [if_neg ht]
      exact tsLoop_lt f _ _ _ _ (Nat.mod_lt _ (by norm_num [P]))

theorem tonelli_lt (u : ℕ) : tonelli u < P := by
  unfold tonelli
  apply tsLoop_lt
  rw [powMod_eq]
  exact Nat.mod_lt _ (by norm_num [P])

theorem modSqrt_some_lt {u r : ℕ} (h : modSqrt u = some r) : r < P := by
  unfold modSqrt at h
  by_cases h0 : u % P = 0
  · rw [if_pos h0] at h
    have : r = 0 := by simpa using h.symm
    subst this
    norm_num [P]
  · rw [if_neg h0] at h
    by_cases h1 : powMod u ((P - 1) / 2) P = 1
    · rw [if_pos h1] at h
      have : r = tonelli (u % P) := by simpa using h.symm
      subst this
      exact tonelli_lt _
    · rw [if_neg h1] at h
      exact absurd h (by simp)

theorem feModSqrt_some {x : ℤ} {r : ℤ} (h : feModSqrt x = some r) :
    ∃ rn : ℕ, modSqrt ((x % (P : ℤ)).toNat) = some rn ∧ r = (rn : ℤ) := by
  unfold feModSqrt at h
  cases hm : modSqrt ((x % (P : ℤ)).toNat) with
  | none => rw [hm] at h; exact absurd h (by simp)
  | some rn =>
    rw [hm] at h
    exact ⟨rn, rfl, by simpa using h.symm⟩

theorem unmarshal_eq_some {c : List ℕ} {pt : Point} (h : unmarshal c = some pt) :
    c.length = 32 ∧ isOnCurve pt ∧ pt.2 = feFromBytes (clearedBytes c) ∧
    ∃ r : ℤ, feModSqrt (uValue c) = some r ∧
      pt.1 = (if signBit c ≠ Nat.land ((feToBytes r).getD 0 0) 1 then feNeg r else r) := by
  unfold unmarshal at h
  by_cases hlen : c.length ≠ 32
  · rw [if_pos hlen] at h
    exact absurd h (by simp)
  · rw [if_neg hlen] at h
    cases hsq : feModSqrt (uValue c) with
    | none =>
      rw [hsq] at h
      exact absurd h (by simp)
    | some r =>
      rw [hsq] at h
      dsimp only at h
      by_cases hoc : isOnCurve
          (if signBit c ≠ Nat.land ((feToBytes r).getD 0 0) 1 then feNeg r else r,
            feFromBytes (clearedBytes c))
      · rw [if_pos hoc] at h
        have hpt := Option.some_injective _ h
        refine ⟨not_not.mp hlen, ?_, ?_, r, rfl, ?_⟩
        · rw [← hpt]
          exact hoc
        · rw [← hpt]
        · rw [← hpt]
      · rw [if_neg hoc] at h
        exact absurd h (by simp)

theorem unmarshal_some_onCurve {c : List ℕ} {pt : Point} (h : unmarshal c = some pt) :
    isOnCurve pt :=
  (unmarshal_eq_some h).2.1

/-! ### Square-root existence characterization -/

theorem natCast_eq_one_iff {L : ℕ} (hL : L < P) : ((L : ℕ) : ZMod P) = 1 ↔ L = 1 := by
  constructor
  · intro h
    have h1 : ((L : ℕ) : ZMod P) = ((1 : ℕ) : ZMod P) := by simpa using h
    have := (ZMod.natCast_eq_natCast_iff' _ _ _).mp h1
    rwa [Nat.mod_eq_of_lt hL, Nat.mod_eq_of_lt (by norm_num [P])] at this
  · intro h
    subst h
    exact Nat.cast_one

theorem isSquare_iff_exists_root {u : ℕ} (hu : u < P) :
    IsSquare ((u : ℕ) : ZMod P) ↔ ∃ r : ℕ, r < P ∧ r * r % P = u := by
  constructor
  · rintro ⟨s, hs⟩
    refine ⟨s.val, ZMod.val_lt s, ?_⟩
    have hcast : ((s.val * s.val % P : ℕ) : ZMod P) = ((u : ℕ) : ZMod P) := by
      rw [ZMod.natCast_mod, Nat.cast_mul, ZMod.natCast_zmod_val, ← hs]
    have := (ZMod.natCast_eq_natCast_iff' _ _ _).mp hcast
    rwa [Nat.mod_eq_of_lt (Nat.mod_lt _ (by norm_num [P])), Nat.mod_eq_of_lt hu] at this
  · rintro ⟨r, _, hr⟩
    refine ⟨((r : ℕ) : ZMod P), ?_⟩
    rw [← hr, ZMod.natCast_mod, Nat.cast_mul]

theorem modSqrt_none_iff {u : ℕ} (hu : u < P) :
    modSqrt u = none ↔ ¬ ∃ r : ℕ, r < P ∧ r * r % P = u := by
  unfold modSqrt
  rw [Nat.mod_eq_of_lt hu]
  by_cases h0 : u = 0
  · subst h0
    rw [if_pos rfl]
    constructor
    · intro h
      exact absurd h (by simp)
    · intro h
      exact absurd ⟨0, by norm_num [P]⟩ h
  · rw [if_neg h0]
    have hne : ((u : ℕ) : ZMod P) ≠ 0 := natCast_ne_zero_F h0 hu
    have heuler := ZMod.euler_criterion P hne
    have hhalf : P / 2 = (P - 1) / 2 := by decide
    rw [hhalf] at heuler
    have hbridge : ((u : ℕ) : ZMod P) ^ ((P - 1) / 2) = 1 ↔ powMod u ((P - 1) / 2) P = 1 := by
      rw [← natCast_powMod]
      exact natCast_eq_one_iff (by rw [powMod_eq]; exact Nat.mod_lt _ (by norm_num [P]))
    by_cases h1 : powMod u ((P - 1) / 2) P = 1
    · rw [if_pos h1]
      constructor
      · intro h
        exact absurd h (by simp)
      · intro h
        exact absurd ((isSquare_iff_exists_root hu).mp (heuler.mpr (hbridge.mpr h1))) h
    · rw [if_neg h1]
      constructor
      · intro _ hex
        exact h1 (hbridge.mp (heuler.mp ((isSquare_iff_exists_root hu).mpr hex)))
      · intro _
        rfl

/-- The `y` value decoded by `UnmarshalBinary` (the cleared input reduced
modulo `p`). -/
def yValue (c : List ℕ) : ℤ := feFromBytes (clearedBytes c)

/-- The candidate `x` after root recovery and sign selection (junk `0` when
root recovery fails — decompression has already failed then). -/
def xCandidate (c : List ℕ) : ℤ :=
  match feModSqrt (uValue c) with
  | none => 0
  | some r => if signBit c ≠ Nat.land ((feToBytes r).getD 0 0) 1 then feNeg r else r

/-- The value `u = (y^2-1)/(d*y^2+1)` computed by decompression has a square
root modulo `p`. -/
def hasRoot (c : List ℕ) : Prop := ∃ r : ℕ, r < P ∧ r * r % P = (uValue c).toNat

theorem uValue_bounds (c : List ℕ) : 0 ≤ uValue c ∧ uValue c < (P : ℤ) := by
  unfold uValue
  exact feMul_canonical _ _

theorem uValue_toNat_lt (c : List ℕ) : (uValue c).toNat < P := by
  have h := uValue_bounds c
  omega

theorem feModSqrt_uValue_eq (c : List ℕ) :
    feModSqrt (uValue c) = (modSqrt ((uValue c).toNat)).map (fun r => ((r : ℕ) : ℤ)) := by
  unfold feModSqrt
  have h := uValue_bounds c
  rw [Int.emod_eq_of_lt h.1 h.2]

theorem hasRoot_iff_not_none (c : List ℕ) :
    hasRoot c ↔ ¬ modSqrt ((uValue c).toNat) = none := by
  rw [modSqrt_none_iff (uValue_toNat_lt c)]
  unfold hasRoot
  exact (not_not).symm

theorem unmarshal_none_iff (c : List ℕ) :
    unmarshal c = none ↔
      c.length ≠ 32 ∨ ¬ hasRoot c ∨ ¬ isOnCurve (xCandidate c, yValue c) := by
  by_cases hlen : c.length ≠ 32
  · apply iff_of_true
    · unfold unmarshal
      rw [if_pos hlen]
    · exact Or.inl hlen
  · cases hsq : feModSqrt (uValue c) with
    | none =>
      apply iff_of_true
      · unfold unmarshal
        rw [if_neg hlen, hsq]
      · refine Or.inr (Or.inl ?_)
        rw [hasRoot_iff_not_none, not_not]
        have := feModSqrt_uValue_eq c
        rw [hsq] at this
        cases hms : modSqrt ((uValue c).toNat) with
        | none => rfl
        | some rn =>
          rw [hms] at this
          exact absurd this.symm (by simp)
    | some r =>
      have hroot : hasRoot c := by
        rw [hasRoot_iff_not_none]
        intro hnone
        have := feModSqrt_uValue_eq c
        rw [hsq, hnone] at this
        exact absurd this (by simp)
      have hcand : xCandidate c =
          (if signBit c ≠ Nat.land ((feToBytes r).getD 0 0) 1 then feNeg r else r) := by
        unfold xCandidate
        rw [hsq]
      by_cases hoc : isOnCurve
          (if signBit c ≠ Nat.land ((feToBytes r).getD 0 0) 1 then feNeg r else r,
            feFromBytes (clearedBytes c))
      · apply iff_of_false
        · unfold unmarshal
          rw [if_neg hlen, hsq]
          dsimp only
          rw [if_pos hoc]
          simp
        · push_neg
          refine ⟨not_not.mp hlen, hroot, ?_⟩
          rw [hcand]
          unfold yValue
          exact hoc
      · apply iff_of_true
        · unfold unmarshal
          rw [if_neg hlen, hsq]
          dsimp only
          rw [if_neg hoc]
        · refine Or.inr (Or.inr ?_)
          rw [hcand]
          unfold yValue
          exact hoc

theorem scalarMult_none_iff (k : ℕ) (pt : Point) :
    scalarMult k pt = none ↔ ¬ isOnCurve pt := by
  unfold scalarMult
  by_cases h : isOnCurve pt
  · rw [if_pos h]
    simp [h]
  · rw [if_neg h]
    simp [h]

/-! ### Round-trip of the compressed encoding -/

theorem list_eq_take31_getD {c : List ℕ} (hlen : c.length = 32) :
    c = c.take 31 ++ [c.getD 31 0] := by
  have hdl : (c.drop 31).length = 1 := by
    rw [List.length_drop, hlen]
  obtain ⟨a, ha⟩ := List.length_eq_one.mp hdl
  have htl : (c.take 31).length = 31 := by
    rw [List.length_take]
    omega
  have hgd : c.getD 31 0 = a := by
    conv_lhs => rw [← List.take_append_drop 31 c]
    rw [List.getD_append_right _ _ _ _ (by omega), htl, ha]
    rfl
  rw [hgd, ← ha]
  exact (List.take_append_drop 31 c).symm

theorem take31_clearedBytes {c : List ℕ} (hlen : c.length = 32) :
    (clearedBytes c).take 31 = c.take 31 := by
  unfold clearedBytes
  have hlen31 : (c.take 31).length = 31 := by
    rw [List.length_take]
    omega
  rw [List.take_append_of_le_length (by omega), List.take_take]
  norm_num

theorem getD31_clearedBytes {c : List ℕ} (hlen : c.length = 32) :
    (clearedBytes c).getD 31 0 = Nat.land (c.getD 31 0) 127 := by
  unfold clearedBytes
  have hlen31 : (c.take 31).length = 31 := by
    rw [List.length_take]
    omega
  rw [List.getD_append_right _ _ _ _ (by omega), hlen31]
  rfl

/-- Canonical, sign-consistent inputs round-trip through decompression and
recompression. -/
theorem marshal_unmarshal {c : List ℕ} {pt : Point} (hlen : c.length = 32)
    (hbytes : ∀ b ∈ c, b < 256) (hy : leVal (clearedBytes c) < P)
    (hum : unmarshal c = some pt) (hsign : pt.1 ≠ 0 ∨ signBit c = 0) :
    marshal pt = c := by
  obtain ⟨-, -, hy2, r, hsq, hx⟩ := unmarshal_eq_some hum
  obtain ⟨rn, hms, hrn⟩ := feModSqrt_some hsq
  have hrnP : rn < P := modSqrt_some_lt hms
  have hcl : (clearedBytes c).length = 32 := clearedBytes_length hlen
  have hclt : ∀ b ∈ clearedBytes c, b < 256 := clearedBytes_lt hlen hbytes
  have htake : (clearedBytes c).take 32 = clearedBytes c := by
    rw [← hcl]
    exact List.take_length _
  have hyval : pt.2 = ((leVal (clearedBytes c) : ℕ) : ℤ) := by
    rw [hy2]
    unfold feFromBytes
    rw [htake, Nat.mod_eq_of_lt hy]
  have hfeY : feToBytes pt.2 = clearedBytes c := by
    unfold feToBytes
    rw [hyval, Int.emod_eq_of_lt (Int.natCast_nonneg _) (by exact_mod_cast hy),
      Int.toNat_natCast, ← hcl]
    exact toBytesLE_leVal _ hclt
  have hc31 : c.getD 31 0 < 256 := getD31_lt hlen hbytes
  have hxc : 0 ≤ pt.1 ∧ pt.1 < (P : ℤ) := by
    rw [hx]
    by_cases hif : signBit c ≠ Nat.land ((feToBytes r).getD 0 0) 1
    · rw [if_pos hif]
      unfold feNeg
      exact ⟨Int.emod_nonneg _ (by norm_num [P]), Int.emod_lt_of_pos _ (by norm_num [P])⟩
    · rw [if_neg hif, hrn]
      exact ⟨Int.natCast_nonneg rn, by exact_mod_cast hrnP⟩
  have hfeX0 : (feToBytes pt.1).getD 0 0 = pt.1.toNat % 256 := by
    unfold feToBytes
    rw [Int.emod_eq_of_lt hxc.1 hxc.2]
    rfl
  have hsign2 : signBit c = c.getD 31 0 / 128 := shiftRight7_eq _ hc31
  have hsignlt : signBit c ≤ 1 := by
    rw [hsign2]
    omega
  have hPodd : P % 2 = 1 := by decide
  have hdecr : Nat.land ((feToBytes r).getD 0 0) 1 = rn % 2 := by
    have h0 : (feToBytes r).getD 0 0 = rn % 256 := by
      unfold feToBytes
      rw [hrn, Int.emod_eq_of_lt (Int.natCast_nonneg rn) (by exact_mod_cast hrnP),
        Int.toNat_natCast]
      rfl
    rw [h0, land1_eq _ (Nat.mod_lt _ (by norm_num))]
    omega
  have hbit : pt.1.toNat % 2 = signBit c := by
    by_cases hif : signBit c ≠ Nat.land ((feToBytes r).getD 0 0) 1
    · rcases Nat.eq_zero_or_pos rn with hr0 | hrpos
      · have hpt0 : pt.1 = 0 := by
          rw [hx, if_pos hif, hrn, hr0]
          unfold feNeg
          norm_num
        have hs0 : signBit c = 0 := by
          rcases hsign with h | h
          · exact absurd hpt0 h
          · exact h
        rw [hpt0, hs0]
        rfl
      · have hrnz : (0 : ℤ) < (rn : ℤ) := by exact_mod_cast hrpos
        have hrnp : (rn : ℤ) < (P : ℤ) := by exact_mod_cast hrnP
        have hneg : pt.1 = (P : ℤ) - rn := by
          rw [hx, if_pos hif, hrn]
          unfold feNeg
          rw [show (-(rn : ℤ)) = ((P : ℤ) - rn) + (P : ℤ) * (-1) from by ring,
            Int.add_mul_emod_self_left]
          exact Int.emod_eq_of_lt (by omega) (by omega)
        have htn : pt.1.toNat = P - rn := by
          rw [hneg]
          have hPz : ((P : ℕ) : ℤ) = (P : ℤ) := rfl
          omega
        rw [hdecr] at hif
        rw [htn]
        omega
    · rw [not_not] at hif
      have hpt : pt.1 = (rn : ℤ) := by
        rw [hx, if_neg (not_not.mpr hif)]
        exact hrn
      rw [hpt, Int.toNat_natCast, ← hdecr, hif]
  unfold marshal
  dsimp only
  rw [hfeY, hfeX0, take31_clearedBytes hlen, getD31_clearedBytes hlen,
    land127_eq _ hc31, land1_eq _ (Nat.mod_lt _ (by norm_num))]
  have hb2 : pt.1.toNat % 256 % 2 = pt.1.toNat % 2 := Nat.mod_mod_of_dvd _ (by norm_num)
  rw [hb2, hbit, lor_sign_eq _ (by omega) _ hsignlt, hsign2]
  have hfin : c.getD 31 0 % 128 + 128 * (c.getD 31 0 / 128) = c.getD 31 0 := by omega
  rw [hfin]
  exact (list_eq_take31_getD hlen).symm

/-! ### Remaining helper lemmas -/

theorem pointNeg_onCurve {q : Point} (h : isOnCurve q) : isOnCurve (pointNeg q) := by
  rw [isOnCurve_iff] at h ⊢
  unfold castPt pointNeg at *
  dsimp only at *
  unfold edOnCurve at h ⊢
  dsimp only at h ⊢
  rw [castF_feNeg]
  linear_combination h

theorem scalarMult_onCurve {k : ℕ} {pt q : Point} (hpt : isOnCurve pt)
    (h : scalarMult k pt = some q) : isOnCurve q := by
  rw [scalarMult_eq_codeIter hpt k] at h
  have hq : q = codeIter pt k := (Option.some_injective _ h).symm
  subst hq
  rw [isOnCurve_iff, codeIter_castF ((isOnCurve_iff pt).mp hpt) k]
  exact edIter_onCurve ((isOnCurve_iff pt).mp hpt) k

theorem generator_isSome : generator.isSome = true := by decide

theorem generator_onCurve {g : Point} (h : generator = some g) : isOnCurve g :=
  unmarshal_some_onCurve h

theorem subgroupGenerator_isSome : subgroupGenerator.isSome = true := by
  unfold subgroupGenerator
  cases hg : generator with
  | none =>
    have := generator_isSome
    rw [hg] at this
    exact absurd this (by simp)
  | some g =>
    show (mulByCofactor g).isSome = true
    unfold mulByCofactor
    rw [scalarMult_eq_codeIter (generator_onCurve hg) 8]
    rfl

theorem subgroupGenerator_onCurve {q : Point} (h : subgroupGenerator = some q) :
    isOnCurve q := by
  unfold subgroupGenerator at h
  cases hg : generator with
  | none =>
    rw [hg] at h
    exact absurd h (by simp)
  | some g =>
    rw [hg] at h
    exact scalarMult_onCurve (generator_onCurve hg) h

theorem unmarshal_congr {c c' : List ℕ} (h1 : c.length = 32) (h2 : c'.length = 32)
    (hs : signBit c = signBit c')
    (hv : leVal (clearedBytes c) % P = leVal (clearedBytes c') % P) :
    unmarshal c = unmarshal c' := by
  have hy : feFromBytes (clearedBytes c) = feFromBytes (clearedBytes c') := by
    unfold feFromBytes
    rw [show (clearedBytes c).take 32 = clearedBytes c from by
        rw [← clearedBytes_length h1]; exact List.take_length _,
      show (clearedBytes c').take 32 = clearedBytes c' from by
        rw [← clearedBytes_length h2]; exact List.take_length _, hv]
  unfold unmarshal uValue
  simp only [h1, h2, hs, hy]

/-! ## The specification claims -/

/-- The compressed-point test vector `db4c…7415` as a little-endian byte
list. -/
def hexVec : List ℕ := [0xdb, 0x4c, 0xd2, 0xb0, 0xaa, 0xc4, 0xf7, 0xeb, 0x8c, 0xa1,
  0x31, 0xf1, 0x65, 0x67, 0xc4, 0x45, 0xa9, 0x55, 0x51, 0x26, 0xd3, 0xc2, 0x9f, 0x14,
  0xe3, 0xd7, 0x76, 0xe8, 0x41, 0xae, 0x74, 0x15]

/-- C1, counterexample: the claim "every 32-byte string that decompresses
successfully recompresses to the same bytes" fails at the encoding of the
identity with the sign bit forced to `1`: the input `01 00 … 00 80`
decompresses to `(0, 1)`, but recompressing yields `01 00 … 00 00`. -/
theorem compress_roundtrip_counterexample :
    unmarshal (1 :: (List.replicate 30 0 ++ [128])) = some identityPt ∧
      marshal identityPt ≠ 1 :: (List.replicate 30 0 ++ [128]) := by
  constructor
  · decide
  · decide

/-- C1, amended: a 32-byte string that decompresses successfully recompresses
to the same bytes provided its `y`-field (the value after clearing the sign
bit) is canonical (`< p`) and its sign bit is consistent (the decompressed
`x` is nonzero, or the sign bit is `0`); in particular the concrete vector
`db4c…7415` decompresses successfully and recompresses to itself. -/
theorem compress_roundtrip_canonical :
    (∀ (c : List ℕ) (pt : Point), c.length = 32 → (∀ b ∈ c, b < 256) →
      leVal (clearedBytes c) < P → unmarshal c = some pt →
      (pt.1 ≠ 0 ∨ signBit c = 0) → marshal pt = c) ∧
    ∃ pt : Point, unmarshal hexVec = some pt ∧ marshal pt = hexVec := by
  constructor
  · intro c pt h1 h2 h3 h4 h5
    exact marshal_unmarshal h1 h2 h3 h4 h5
  · refine ⟨((41050235188544478418366209524862836201380949263485756367215295374254530985114 : ℤ),
      (9704726760505102629595623322929810829485096538761553509148554541066026634459 : ℤ)), ?_, ?_⟩
    · decide
    · decide

/-- C1, witness: the round-trip theorem applied to the concrete vector. -/
theorem compress_roundtrip_canonical_witness :
    marshal ((41050235188544478418366209524862836201380949263485756367215295374254530985114 : ℤ),
      (9704726760505102629595623322929810829485096538761553509148554541066026634459 : ℤ)) =
      hexVec :=
  compress_roundtrip_canonical.1 hexVec _ (by decide) (by decide) (by decide) (by decide)
    (Or.inl (by decide))

/-- C2: for every scalar `k` with `0 ≤ k < n` and every point on the curve,
`ScalarMult` — the two-accumulator ladder with `r0` initialized to the
identity and `r1` to the point, processing bits from most significant to
least significant and returning `r0` — returns exactly the point obtained by
`k` repeated curve-level additions of the point starting from the identity. -/
theorem scalarMult_is_repeated_addition (k : ℕ) (_hk : k < subgroupOrder) (pt : Point)
    (hpt : isOnCurve pt) : scalarMult k pt = some (codeIter pt k) :=
  scalarMult_eq_codeIter hpt k

/-- C2, witness: `3 · identity` via the ladder equals three repeated
additions. -/
theorem scalarMult_is_repeated_addition_witness :
    scalarMult 3 identityPt = some (codeIter identityPt 3) :=
  scalarMult_is_repeated_addition 3 (by decide) identityPt (by decide)

/-- C3: every operation that returns a point to a caller — `Identity`,
`Generator`, `SubgroupGenerator`, `Add`, `Double` (both the curve-level and
the in-place forms), `Neg`, `ScalarMult` on an on-curve input,
`MulByCofactor`, and a successful `Decompress`/`UnmarshalBinary` — returns a
point satisfying the curve equation (operations acting on points assume
on-curve operands, the validity invariant of §3); `ScalarMult`-based
operations succeed on on-curve inputs, and the generator constructors
succeed. -/
theorem returned_points_on_curve :
    isOnCurve identityPt ∧
    ((∀ g, generator = some g → isOnCurve g) ∧ generator.isSome = true) ∧
    ((∀ g, subgroupGenerator = some g → isOnCurve g) ∧ subgroupGenerator.isSome = true) ∧
    (∀ p1 p2, isOnCurve p1 → isOnCurve p2 →
      isOnCurve (curveAdd p1 p2) ∧ isOnCurve (pointAdd p1 p2)) ∧
    (∀ p1, isOnCurve p1 → isOnCurve (curveDouble p1) ∧ isOnCurve (pointDouble p1)) ∧
    (∀ q, isOnCurve q → isOnCurve (pointNeg q)) ∧
    (∀ (k : ℕ) (pt : Point), isOnCurve pt → ∃ q, scalarMult k pt = some q ∧ isOnCurve q) ∧
    (∀ pt, isOnCurve pt → ∃ q, mulByCofactor pt = some q ∧ isOnCurve q) ∧
    (∀ (c : List ℕ) (pt : Point), unmarshal c = some pt → isOnCurve pt) := by
  refine ⟨by decide, ⟨fun g h => generator_onCurve h, generator_isSome⟩,
    ⟨fun g h => subgroupGenerator_onCurve h, subgroupGenerator_isSome⟩,
    ?_, ?_, fun q h => pointNeg_onCurve h, ?_, ?_,
    fun c pt h => unmarshal_some_onCurve h⟩
  · intro p1 p2 h1 h2
    exact ⟨by rw [curveAdd_eq_pointAdd]; exact pointAdd_onCurve h1 h2, pointAdd_onCurve h1 h2⟩
  · intro p1 h1
    have hd : isOnCurve (pointDouble p1) := by
      rw [pointDouble_eq_pointAdd]
      exact pointAdd_onCurve h1 h1
    exact ⟨by rw [curveDouble_eq_pointDouble]; exact hd, hd⟩
  · intro k pt hpt
    exact ⟨codeIter pt k, scalarMult_eq_codeIter hpt k,
      scalarMult_onCurve hpt (scalarMult_eq_codeIter hpt k)⟩
  · intro pt hpt
    exact ⟨codeIter pt 8, scalarMult_eq_codeIter hpt 8,
      scalarMult_onCurve hpt (scalarMult_eq_codeIter hpt 8)⟩

/-- C3, witness: the closure statement applied to the identity point. -/
theorem returned_points_on_curve_witness :
    isOnCurve (curveAdd identityPt identityPt) :=
  ((returned_points_on_curve.2.2.2.1) identityPt identityPt (by decide) (by decide)).1

/-- C4: an `ErrInvalidPoint` failure (`none`), with no usable result, occurs
exactly in these cases: `UnmarshalBinary`/`Decompress` on an input whose
length is not 32; `UnmarshalBinary`/`Decompress` when the derived value
`u = (y²-1)/(d·y²+1)` has no square root modulo `p` (`hasRoot`);
`UnmarshalBinary`/`Decompress` when the final curve-equation check on the
candidate point fails; and `ScalarMult` on a point that does not satisfy the
curve equation, which performs no computation. -/
theorem invalidPoint_exactly :
    (∀ c : List ℕ, unmarshal c = none ↔
      c.length ≠ 32 ∨ ¬ hasRoot c ∨ ¬ isOnCurve (xCandidate c, yValue c)) ∧
    (∀ (k : ℕ) (pt : Point), scalarMult k pt = none ↔ ¬ isOnCurve pt) :=
  ⟨unmarshal_none_iff, scalarMult_none_iff⟩

/-- C5, counterexample: `newFieldElement` does not reduce every out-of-range
value: `-1` and `p` itself are stored unchanged (the compare is the strict
`Cmp == 1`), and the curve builds its own `d` as a negative stored value. -/
theorem fieldElement_reduction_counterexample :
    newFieldElement (-1) = -1 ∧ newFieldElement ((P : ℤ)) = ((P : ℤ)) ∧
      dStored < 0 ∧ ¬ (0 ≤ newFieldElement (-1)) := by
  refine ⟨by decide, by decide, by decide, by decide⟩

/-- C5, amended: every arithmetic field-element operation (`Add`, `Sub`,
`Mul`, `Neg`, byte decode, and `Exp` with a nonnegative exponent) returns a
canonically reduced value in `[0, p)`; construction via `newFieldElement`
reduces only values strictly greater than `p` (such values come back reduced
into `[0, p)` with no error), while a value less than or equal to `p` —
including `p` itself and negative values — is stored unchanged. -/
theorem fieldElement_ops_reduced :
    (∀ x y : ℤ, 0 ≤ feAdd x y ∧ feAdd x y < (P : ℤ)) ∧
    (∀ x y : ℤ, 0 ≤ feSub x y ∧ feSub x y < (P : ℤ)) ∧
    (∀ x y : ℤ, 0 ≤ feMul x y ∧ feMul x y < (P : ℤ)) ∧
    (∀ x : ℤ, 0 ≤ feNeg x ∧ feNeg x < (P : ℤ)) ∧
    (∀ c : List ℕ, 0 ≤ feFromBytes c ∧ feFromBytes c < (P : ℤ)) ∧
    (∀ z x y : ℤ, 0 ≤ y → 0 ≤ feExp z x y ∧ feExp z x y < (P : ℤ)) ∧
    (∀ v : ℤ, (P : ℤ) < v →
      newFieldElement v = v % (P : ℤ) ∧ 0 ≤ newFieldElement v ∧ newFieldElement v < (P : ℤ)) ∧
    (∀ v : ℤ, v ≤ (P : ℤ) → newFieldElement v = v) := by
  have hP : (0 : ℤ) < (P : ℤ) := by norm_num [P]
  have hPn : (P : ℤ) ≠ 0 := by norm_num [P]
  refine ⟨fun x y => ⟨Int.emod_nonneg _ hPn, Int.emod_lt_of_pos _ hP⟩,
    fun x y => ⟨Int.emod_nonneg _ hPn, Int.emod_lt_of_pos _ hP⟩,
    fun x y => ⟨Int.emod_nonneg _ hPn, Int.emod_lt_of_pos _ hP⟩,
    fun x => ⟨Int.emod_nonneg _ hPn, Int.emod_lt_of_pos _ hP⟩, ?_, ?_, ?_, ?_⟩
  · intro c
    unfold feFromBytes
    constructor
    · exact Int.natCast_nonneg _
    · exact_mod_cast Nat.mod_lt _ (by norm_num [P])
  · intro z x y hy
    unfold feExp
    rw [if_pos hy]
    constructor
    · exact Int.natCast_nonneg _
    · rw [powMod_eq]
      exact_mod_cast Nat.mod_lt _ (by norm_num [P])
  · intro v hv
    unfold newFieldElement
    rw [if_pos hv]
    exact ⟨rfl, Int.emod_nonneg _ hPn, Int.emod_lt_of_pos _ hP⟩
  · intro v hv
    unfold newFieldElement
    rw [if_neg (by omega)]

/-- C5, witness: the hypothesis-bearing conjuncts applied at concrete
values. -/
theorem fieldElement_ops_reduced_witness :
    (0 ≤ feExp 0 3 5 ∧ feExp 0 3 5 < (P : ℤ)) ∧
    (newFieldElement ((P : ℤ) + 2) = ((P : ℤ) + 2) % (P : ℤ)) ∧
    newFieldElement (-5) = -5 :=
  ⟨fieldElement_ops_reduced.2.2.2.2.2.1 0 3 5 (by norm_num),
    (fieldElement_ops_reduced.2.2.2.2.2.2.1 ((P : ℤ) + 2) (by omega)).1,
    fieldElement_ops_reduced.2.2.2.2.2.2.2 (-5) (by norm_num [P])⟩

/-- C6, counterexample: a value equal to the subgroup order `n` — which is
outside `[0, n)` — is accepted silently: `newScalar`/`ScalarFromBytes`
return it unreduced with no out-of-range signal (the compare is the strict
`Cmp == 1`; the repository's own generator test relies on this). -/
theorem scalar_range_signal_counterexample :
    newScalar ((subgroupOrder : ℤ)) = (((subgroupOrder : ℤ)), false) ∧
      scalarFromBytes (toBytesLE 32 subgroupOrder) = (((subgroupOrder : ℤ)), false) := by
  constructor
  · decide
  · decide

/-- C6, amended: scalar construction reduces the value and raises the
out-of-range signal exactly when the value is strictly greater than `n` or
negative; a value in `[0, n]` — including `n` itself — is returned unchanged
with no signal, and `ScalarFromBytes` applies the same rule to the assembled
little-endian value. -/
theorem scalar_range_signal_amended :
    (∀ v : ℤ, (subgroupOrder : ℤ) < v ∨ v < 0 →
      newScalar v = (v % (subgroupOrder : ℤ), true) ∧
        0 ≤ v % (subgroupOrder : ℤ) ∧ v % (subgroupOrder : ℤ) < (subgroupOrder : ℤ)) ∧
    (∀ v : ℤ, 0 ≤ v → v ≤ (subgroupOrder : ℤ) → newScalar v = (v, false)) ∧
    (∀ c : List ℕ, scalarFromBytes c = newScalar ((leVal (c.take 32) : ℕ) : ℤ)) := by
  refine ⟨?_, ?_, fun c => rfl⟩
  · intro v hv
    unfold newScalar
    rw [if_pos hv]
    exact ⟨rfl, Int.emod_nonneg _ (by norm_num [subgroupOrder]),
      Int.emod_lt_of_pos _ (by norm_num [subgroupOrder])⟩
  · intro v h0 h1
    unfold newScalar
    rw [if_neg (by omega)]

/-- C6, witness: the amended rules applied at `n + 1` and `5`. -/
theorem scalar_range_signal_amended_witness :
    newScalar ((subgroupOrder : ℤ) + 1) = (((subgroupOrder : ℤ) + 1) % (subgroupOrder : ℤ), true) ∧
      newScalar 5 = (5, false) :=
  ⟨(scalar_range_signal_amended.1 _ (Or.inl (by omega))).1,
    scalar_range_signal_amended.2.1 5 (by norm_num) (by norm_num [subgroupOrder])⟩

/-- C7, counterexample: `ModInverse` invoked on the zero field element does
not fail — it returns the receiver's previous value (here `5`) as a usable
result, because the wrapper ignores the `nil` return of the underlying
routine. -/
theorem modInverse_zero_counterexample : feModInverse 5 0 = 5 := by decide

/-- C7, amended: `ModInverse` on the zero field element signals no failure:
it leaves the receiver unchanged and returns it. -/
theorem modInverse_zero_unchanged : ∀ z : ℤ, feModInverse z 0 = z := by
  intro z
  unfold feModInverse
  rw [if_pos (Int.zero_emod _)]

/-- C8: the allocating curve-level operations and the in-place point-level
operations compute identical results on all inputs: `Jubjub.Add` agrees with
`Point.Add` and `Jubjub.Double` with `Point.Double` (the in-place methods
read every operand before writing the receiver, so the result is independent
of the receiver, including a receiver aliasing an operand). -/
theorem curve_and_point_ops_agree :
    (∀ p1 p2 : Point, curveAdd p1 p2 = pointAdd p1 p2) ∧
    (∀ p1 : Point, curveDouble p1 = pointDouble p1) :=
  ⟨curveAdd_eq_pointAdd, curveDouble_eq_pointDouble⟩

/-- C9: decompression accepts non-canonical `y` encodings: the result depends
on the cleared input only through its value modulo `p` (and the sign bit), so
the input is never rejected for being `≥ p`; concretely, the encoding of
`p + 1` has cleared value `≥ p`, decodes successfully to the identity — the
same point as the distinct encoding of `1`. -/
theorem noncanonical_y_accepted :
    (∀ c c' : List ℕ, c.length = 32 → c'.length = 32 → signBit c = signBit c' →
      leVal (clearedBytes c) % P = leVal (clearedBytes c') % P →
      unmarshal c = unmarshal c') ∧
    P ≤ leVal (clearedBytes (toBytesLE 32 (P + 1))) ∧
    unmarshal (toBytesLE 32 (P + 1)) = some identityPt ∧
    unmarshal (toBytesLE 32 1) = some identityPt ∧
    toBytesLE 32 (P + 1) ≠ toBytesLE 32 1 := by
  refine ⟨fun c c' h1 h2 hs hv => unmarshal_congr h1 h2 hs hv, ?_, ?_, ?_, ?_⟩
  · decide
  · decide
  · decide
  · decide

/-- C9, witness: the congruence statement applied to the encodings of `p + 1`
and `1`. -/
theorem noncanonical_y_accepted_witness :
    unmarshal (toBytesLE 32 (P + 1)) = unmarshal (toBytesLE 32 1) :=
  noncanonical_y_accepted.1 _ _ (by decide) (by decide) (by decide) (by decide)

/-- C10: when the recovered `x` is zero, decompression does not reject a sign
bit of `1`: the encoding of the identity `(0, 1)` with bit 7 of byte 31 set
decompresses successfully to `(0, 1)` even though its extracted sign (`1`)
disagrees with the least significant bit of `x = 0`; likewise for the other
`x = 0` point `(0, -1)`. -/
theorem sign_bit_zero_x_accepted :
    unmarshal (1 :: (List.replicate 30 0 ++ [128])) = some (0, 1) ∧
    signBit (1 :: (List.replicate 30 0 ++ [128])) = 1 ∧
    Nat.land ((feToBytes 0).getD 0 0) 1 = 0 ∧
    unmarshal ((toBytesLE 32 (P - 1)).take 31 ++
      [(toBytesLE 32 (P - 1)).getD 31 0 + 128]) = some (0, ((P - 1 : ℕ) : ℤ)) := by
  refine ⟨by decide, by decide, by decide, by decide⟩

end Jubjub